import Mathlib

/-!
# blevego: the bulk-indexing load and the search hydration of `iitm.go`

A shallow embedding of `src/iitm.go` (one Go file: a product catalog, a
concurrent bulk load into a bleve index, a fuzzy search whose hits are turned
back into catalog records) together with theorems about it.

Conventions of the embedding

* Go `int` values are Lean `Nat`/`Int`.  The loop variable of the feeding loop
  is a `Nat`; `feedLoopInt` is the same loop with the wrapping sums of a 64-bit
  `int`, and `feedLoopInt_eq` shows that the two agree whenever `n + chunk` fits
  an `int`.  For the `uint64` accumulator of `strconv.ParseUint` the reduction
  `% 2 ^ 64` is written out.
* A Go `string` that is inspected byte by byte (a document key) is a list of
  bytes, `List (Fin 256)`; byte arithmetic is the modular arithmetic of
  `Fin 256`, as in Go.
* A loop that need not terminate carries a fuel argument and returns `none`
  when the fuel runs out.
* The bleve index is not part of the repository; its `Search` enters as a
  parameter (`Engine`) and its calls are recorded in a trace; the outcome of each
  `index.Batch` call is chosen by the execution.
* The goroutines of the load are a transition system (`step`), an execution is a
  list of actions (`run`).
-/

namespace Blevego

/-! ## Constants of `createIndex` (lines 94-98) -/

/-- The constant `batchSize` of `createIndex`. -/
def batchSize : Nat := 50000

/-- The constant `numWorkers` of `createIndex`. -/
def numWorkers : Nat := 12

/-- The constant `queueBuffer` of `createIndex`. -/
def queueBuffer : Nat := 100

/-- The value of `chunk := batchSize / numWorkers` (line 127), Go integer division. -/
def chunkLen (batchSize numWorkers : Nat) : Nat := batchSize / numWorkers

/-- The `chunk` of the program: `50000 / 12`. -/
def chunk : Nat := chunkLen batchSize numWorkers

/-! ## The partition loop of `createIndex` (lines 123-140) -/

/-- The slice `allIndices[start:stop]` that one iteration of the feeding loop sends
on `batches`, kept as its two bounds (`stop` is the source's `end`, a Lean keyword). -/
structure Chunk where
  start : Nat
  stop : Nat
deriving DecidableEq, Repr

/-- The slice `allIndices` of lines 123-126: `allIndices[i] = i` for `i < n`. -/
def allIndices (n : Nat) : List Nat := List.range n

/-- The Go slice expression `xs[lo:hi]`. -/
def goSlice (xs : List Nat) (lo hi : Nat) : List Nat := (xs.drop lo).take (hi - lo)

/-- The positions a chunk carries to a worker: the contents of `allIndices[start:stop]`. -/
def Chunk.indices (n : Nat) (c : Chunk) : List Nat := goSlice (allIndices n) c.start c.stop

/-- Lines 129-132: `end := start + chunk; if end > len(allIndices) { end = len(allIndices) }`. -/
def chunkEnd (chunk n start : Nat) : Nat :=
  if start + chunk > n then n else start + chunk

/-- The feeding loop of lines 128-139 on the path where every `select` takes the send
case (no worker error is received): the chunks sent on `batches`, in order.  `chunk`
is the chunk length, `n` is `len(allIndices)`, the third argument is fuel and the
fourth is the loop variable `start`.  `none` means the fuel ran out. -/
def feedLoop (chunk n : Nat) : Nat → Nat → Option (List Chunk)
  | 0, _ => none
  | fuel + 1, start =>
    if start < n then
      match feedLoop chunk n fuel (start + chunk) with
      | some rest => some ({ start := start, stop := chunkEnd chunk n start } :: rest)
      | none => none
    else some []

/-- The sum of two Go `int`s on a 64-bit platform: it wraps around. -/
def addInt (a b : Int) : Int := (a + b + 2 ^ 63) % 2 ^ 64 - 2 ^ 63

/-- The feeding loop of lines 128-139 again, with the wrapping `int` arithmetic of the
machine for `start + chunk` and `start += chunk`; each chunk is the pair of its bounds.
`feedLoopInt_eq` shows that it sends what `feedLoop` sends as long as
`n + chunk` fits an `int`, which holds for every slice `allIndices` that can exist. -/
def feedLoopInt (chunk n : Int) : Nat → Int → Option (List (Int × Int))
  | 0, _ => none
  | fuel + 1, start =>
    if start < n then
      match feedLoopInt chunk n fuel (addInt start chunk) with
      | some rest =>
        some ((start, if addInt start chunk > n then n else addInt start chunk) :: rest)
      | none => none
    else some []

/-- The chunks of a load of `n` records with explicit partition parameters; the fuel
`n + 1` is enough whenever the chunk length is positive. -/
def partitionWith (batchSize numWorkers n : Nat) : Option (List Chunk) :=
  feedLoop (chunkLen batchSize numWorkers) n (n + 1) 0

/-- The chunks of a load of `n` records with the constants of the program. -/
def partition (n : Nat) : Option (List Chunk) := partitionWith batchSize numWorkers n

/-- Whether position `i` lies in the chunk `c`. -/
def Chunk.covers (c : Chunk) (i : Nat) : Bool := decide (c.start ≤ i) && decide (i < c.stop)

/-- The number of positions of a chunk. -/
def Chunk.size (c : Chunk) : Nat := c.stop - c.start

/-- The chain shape of a chunk list over `[a, n)` with chunk length `len`: every chunk
starts where the previous one stops, is non-empty, stays below `n`, has `len`
positions unless it is the last, and the last one stops at `n`. -/
def Chain (len n : Nat) : Nat → List Chunk → Prop
  | a, [] => n ≤ a
  | a, c :: cs =>
    c.start = a ∧ a < c.stop ∧ c.stop ≤ n ∧ c.size ≤ len ∧
      (cs ≠ [] → c.size = len) ∧ (cs = [] → c.stop = n) ∧
      (cs ≠ [] → Chain len n c.stop cs)

/-! ## The catalog (lines 20-61) -/

/-- The struct `Product` of lines 20-24. -/
structure Product where
  ID : Int
  Name : String
  Category : String
deriving DecidableEq, Repr

/-- The slice `brands` of `generateProducts`. -/
def brands : List String :=
  ["Nike", "Adidas", "Logitech", "Sony", "Apple", "Samsung", "Lenovo", "Ikea", "Fitbit", "HP"]

/-- The slice `items` of `generateProducts`. -/
def items : List String :=
  ["Running Shoes", "Wireless Mouse", "Yoga Mat", "Gaming Keyboard", "Water Bottle",
    "Smart Watch", "Bluetooth Speaker", "Desk Lamp", "Laptop Stand", "Backpack"]

/-- The slice `colors` of `generateProducts`. -/
def colors : List String := ["Black", "White", "Blue", "Red", "Green", "Gray", "Silver"]

/-- The map `categories` of `generateProducts`; a key that is absent reads as the
empty string, as a Go map of strings does. -/
def categories (item : String) : String :=
  match item with
  | "Running Shoes" => "Footwear"
  | "Wireless Mouse" => "Electronics"
  | "Yoga Mat" => "Fitness"
  | "Gaming Keyboard" => "Electronics"
  | "Water Bottle" => "Home & Kitchen"
  | "Smart Watch" => "Electronics"
  | "Bluetooth Speaker" => "Electronics"
  | "Desk Lamp" => "Home & Kitchen"
  | "Laptop Stand" => "Accessories"
  | "Backpack" => "Accessories"
  | _ => ""

/-- The call `rand.Intn(n)`: the random source is a stream `rnd` of naturals, the
`k`-th call reads `rnd k` and reduces it into `[0, n)`. -/
def Intn (rnd : Nat → Nat) (k n : Nat) : Nat := rnd k % n

/-- The record built by iteration `i` of the loop of lines 50-59; the iteration makes
the calls number `3 * (i - 1)`, `3 * (i - 1) + 1` and `3 * (i - 1) + 2` to `rand.Intn`. -/
def makeProduct (rnd : Nat → Nat) (i : Nat) : Product :=
  let item := items.getD (Intn rnd (3 * (i - 1)) items.length) ""
  let brand := brands.getD (Intn rnd (3 * (i - 1) + 1) brands.length) ""
  let color := colors.getD (Intn rnd (3 * (i - 1) + 2) colors.length) ""
  { ID := (i : Int), Name := brand ++ " " ++ item ++ " – " ++ color, Category := categories item }

/-- The loop `for i := 1; i <= limit; i++ { out = append(out, ...) }` of lines 50-59;
the second argument counts the iterations still allowed. -/
def generateLoop (rnd : Nat → Nat) (limit : Nat) : Nat → Nat → List Product → List Product
  | 0, _, out => out
  | fuel + 1, i, out =>
    if i ≤ limit then generateLoop rnd limit fuel (i + 1) (out ++ [makeProduct rnd i])
    else out

/-- The function `generateProducts` (lines 31-61) for one outcome `rnd` of the random
choices. -/
def generateProducts (rnd : Nat → Nat) : List Product :=
  generateLoop rnd 1000000 1000000 1 []

/-! ## Go strings and `strconv` (standard library, used at lines 91 and 173)

`strconv` is not part of the repository.  `Atoi` is written after the Go
standard library's source for a 64-bit `int`: the fast path for strings of fewer
than 19 bytes, and `ParseInt(s, 10, 0)` over `ParseUint` otherwise.  `Itoa` is
the decimal representation. -/

/-- A byte. -/
abbrev Byte := Fin 256

/-- A Go string: a sequence of bytes. -/
abbrev GoString := List Byte

/-- The two errors of `strconv`: `ErrSyntax` and `ErrRange`. -/
inductive NumError
  | ErrSyntax
  | ErrRange
deriving DecidableEq, Repr

/-- The largest `int` (64 bits). -/
def maxInt : Int := 9223372036854775807

/-- The smallest `int` (64 bits). -/
def minInt : Int := -9223372036854775808

/-- The largest `uint64`. -/
def maxUint64 : Nat := 18446744073709551615

/-- The loop of the fast path of `Atoi`:
`for _, ch := range []byte(s) { ch -= '0'; if ch > 9 { return 0, syntaxError }; n = n*10 + int(ch) }`.
`none` is the syntax error.  At most 18 digits are read, so `n` stays below `10 ^ 18`
and the `int` does not wrap. -/
def atoiFastLoop : List Byte → Int → Option Int
  | [], n => some n
  | ch :: rest, n =>
    let d : Byte := ch - 48
    if d > 9 then none else atoiFastLoop rest (n * 10 + (d.val : Int))

/-- The fast path of `Atoi` after the sign is stripped: `s0` is the whole string, `s` what
is left of it; the digits are read and the result is negated when `s0[0] == '-'`. -/
def atoiFastBody (s0 s : GoString) : Int × Option NumError :=
  match atoiFastLoop s 0 with
  | none => (0, some NumError.ErrSyntax)
  | some n => (if s0.head? = some 45 then -n else n, none)

/-- The fast path of `Atoi`, taken when `0 < len(s) < 19`:
`if s[0] == '-' || s[0] == '+' { s = s[1:]; if len(s) < 1 { return 0, syntaxError } }`,
then the digit loop. -/
def atoiFast (s0 : GoString) : Int × Option NumError :=
  match s0 with
  | [] => (0, some NumError.ErrSyntax)
  | b :: t =>
    if b = 45 ∨ b = 43 then
      if t.length < 1 then (0, some NumError.ErrSyntax) else atoiFastBody s0 t
    else atoiFastBody s0 s0

/-- The byte `lower(c) = c | ('x' - 'X')` of `strconv`. -/
def lower (c : Byte) : Nat := c.val ||| 32

/-- The digit loop of `ParseUint(s, 10, 64)`, with accumulator `n : uint64`:
a byte that is no decimal digit is a syntax error with value 0; when `n * 10` or
`n * 10 + d` leaves the `uint64` range the result is `maxUint64` with a range error. -/
def parseUintLoop : List Byte → Nat → Nat × Option NumError
  | [], n => (n, none)
  | c :: rest, n =>
    let d? : Option Nat :=
      if 48 ≤ c.val ∧ c.val ≤ 57 then some (c.val - 48)
      else if 97 ≤ lower c ∧ lower c ≤ 122 then some (lower c - 97 + 10)
      else none
    match d? with
    | none => (0, some NumError.ErrSyntax)
    | some d =>
      if d ≥ 10 then (0, some NumError.ErrSyntax)
      else if n ≥ maxUint64 / 10 + 1 then (maxUint64, some NumError.ErrRange)
      else
        let n10 := (n * 10) % 2 ^ 64
        let n1 := (n10 + d) % 2 ^ 64
        if n1 < n10 ∨ n1 > maxUint64 then (maxUint64, some NumError.ErrRange)
        else parseUintLoop rest n1

/-- The function `ParseUint(s, 10, 64)`. -/
def parseUint (s : GoString) : Nat × Option NumError :=
  if s = [] then (0, some NumError.ErrSyntax) else parseUintLoop s 0

/-- The function `ParseInt(s, 10, 0)` on a 64-bit platform after the sign is picked
off: `neg` is the sign and `s` the rest.  A syntax error of `ParseUint` is passed on with
value 0; a magnitude of `cutoff = 1 << 63` or more (more than `cutoff` for a negative
number) is a range error with the largest (smallest) `int`. -/
def parseIntBody (neg : Bool) (s : GoString) : Int × Option NumError :=
  if (parseUint s).2 = some NumError.ErrSyntax then (0, some NumError.ErrSyntax)
  else if neg = false ∧ (parseUint s).1 ≥ 2 ^ 63 then (maxInt, some NumError.ErrRange)
  else if neg = true ∧ (parseUint s).1 > 2 ^ 63 then (minInt, some NumError.ErrRange)
  else (if neg = true then -((parseUint s).1 : Int) else ((parseUint s).1 : Int), none)

/-- The function `ParseInt(s, 10, 0)` on a 64-bit platform:
`if s[0] == '+' { s = s[1:] } else if s[0] == '-' { neg = true; s = s[1:] }`, then
`ParseUint` and the range check. -/
def parseInt (s0 : GoString) : Int × Option NumError :=
  match s0 with
  | [] => (0, some NumError.ErrSyntax)
  | b :: t =>
    if b = 43 then parseIntBody false t
    else if b = 45 then parseIntBody true t
    else parseIntBody false s0

/-- The function `strconv.Atoi`: the value and the error (`none` is a nil error). -/
def atoi (s : GoString) : Int × Option NumError :=
  if 0 < s.length ∧ s.length < 19 then atoiFast s else parseInt s

/-- The ASCII digit of `d < 10`. -/
def digitByte (d : Nat) : Byte := Fin.ofNat (48 + d % 10)

/-- The digit loop of `formatBits` in base 10: the digits of `u` are put in front of
`acc`, least significant first.  A `uint64` has at most 20 digits. -/
def formatBitsLoop : Nat → Nat → List Byte → List Byte
  | 0, u, acc => digitByte u :: acc
  | fuel + 1, u, acc =>
    if u ≥ 10 then formatBitsLoop fuel (u / 10) (digitByte (u % 10) :: acc)
    else digitByte u :: acc

/-- The function `strconv.Itoa` on an `int`: the decimal digits, after a `-` for a
negative number. -/
def itoa (i : Int) : GoString :=
  if i < 0 then 45 :: formatBitsLoop 20 i.natAbs [] else formatBitsLoop 20 i.natAbs []

/-! ## The load: document keys and write batches (lines 89-92 and 107-111) -/

/-- The slice `productIDs` of lines 89-92: `productIDs[i] = strconv.Itoa(products[i].ID)`. -/
def productIDs (products : List Product) : List GoString :=
  products.map (fun p => itoa p.ID)

/-- The inner loop of a worker, lines 108-111: for every position `i` of the chunk the
operation `batch.Index(productIDs[i], products[i])` is added to the write batch.
`none` is the run-time panic of an index out of range. -/
def buildBatch (products : List Product) (ids : List GoString) :
    List Nat → Option (List (GoString × Product))
  | [] => some []
  | i :: rest =>
    match ids[i]?, products[i]? with
    | some key, some p =>
      match buildBatch products ids rest with
      | some ops => some ((key, p) :: ops)
      | none => none
    | _, _ => none

/-! ## The search gateway (lines 154-179) and the `/search` handler (lines 194-208) -/

/-- A Go `error` value that is not nil. -/
abbrev GoError := String

/-- What `searchProducts` reads of a hit: its document key `hit.ID`. -/
structure Hit where
  ID : GoString
deriving DecidableEq, Repr

/-- The search request of lines 157-163. -/
structure SearchRequest where
  Term : String
  Fuzziness : Nat
  Size : Nat
  Fields : List String
  Highlight : Bool
deriving DecidableEq, Repr

/-- What `searchProducts` reads of a search result: `res.Hits` and `res.Total`. -/
structure SearchResult where
  Hits : List Hit
  Total : Nat
deriving DecidableEq, Repr

/-- The bleve index as `searchProducts` sees it: the method `Search`, which returns a
result or a non-nil error. -/
structure Engine where
  Search : SearchRequest → Except GoError SearchResult

/-- What a run of the gateway does to its collaborators: a call `index.Search(req)`, or
a read `products[pos]` of the catalog store. -/
inductive Effect
  | searchCall (req : SearchRequest)
  | storeRead (pos : Int)
deriving DecidableEq, Repr

/-- The Go index expression `products[pos]` for an `int` position; `none` is the
run-time panic of an index out of range. -/
def storeAt (products : List Product) (pos : Int) : Option Product :=
  if 0 ≤ pos then products[pos.toNat]? else none

/-- The hydration loop of lines 171-177, with the slice `results` and the trace of
effects as accumulators.  The error of `strconv.Atoi` is discarded (`id, _ :=`).
`none` is a run-time panic. -/
def hydrate (products : List Product) :
    List Hit → List Product → List Effect → Option (List Product × List Effect)
  | [], results, tr => some (results, tr)
  | hit :: rest, results, tr =>
    let id := (atoi hit.ID).1
    if id > 0 ∧ id ≤ (products.length : Int) then
      match storeAt products (id - 1) with
      | some p => hydrate products rest (results ++ [p]) (tr ++ [Effect.storeRead (id - 1)])
      | none => none
    else hydrate products rest results tr

/-- The request built by lines 157-163 for the query text `q`. -/
def mkRequest (q : String) : SearchRequest :=
  { Term := q, Fuzziness := 2, Size := 50, Fields := ["*"], Highlight := true }

/-- What a call of `searchProducts` returns and does: the record list, the error
(`none` is nil) and the effects in order. -/
structure SearchOutcome where
  results : List Product
  err : Option GoError
  trace : List Effect
deriving DecidableEq, Repr

/-- The function `searchProducts` (lines 154-179) over the globals `index` and
`products`.  `none` is a run-time panic. -/
def searchProducts (index : Engine) (products : List Product) (q : String) :
    Option SearchOutcome :=
  match index.Search (mkRequest q) with
  | Except.error e => some { results := [], err := some e, trace := [Effect.searchCall (mkRequest q)] }
  | Except.ok res =>
    match hydrate products res.Hits [] [Effect.searchCall (mkRequest q)] with
    | some (results, tr) => some { results := results, err := none, trace := tr }
    | none => none

/-- The HTTP response of the `/search` handler: status 400 with a message, status 500
with the error's text, or status 200 with the header `X-Total-Count` and the records. -/
inductive Response
  | badRequest (msg : String)
  | serverError (msg : String)
  | ok (totalCount : Nat) (results : List Product)
deriving DecidableEq, Repr

/-- The `/search` handler of `main` (lines 194-208) for the query parameter `q`: the
response and the effects.  `none` is a run-time panic. -/
def searchHandler (index : Engine) (products : List Product) (q : String) :
    Option (Response × List Effect) :=
  if q = "" then some (Response.badRequest "q parameter required", [])
  else
    match searchProducts index products q with
    | none => none
    | some out =>
      match out.err with
      | some e => some (Response.serverError e, out.trace)
      | none => some (Response.ok out.results.length out.results, out.trace)

/-! ## Notions used to state the properties of the gateway -/

/-- The catalog store invariant: `store[i].ID == i + 1` at every position. -/
def StoreInvariant (store : List Product) : Prop :=
  ∀ (i : Nat) (p : Product), store[i]? = some p → p.ID = (i : Int) + 1

/-- The key of a hit parses: `strconv.Atoi` returns a nil error. -/
def keyParses (h : Hit) : Bool := decide ((atoi h.ID).2 = none)

/-- The integer a key parses to (meaningful when `keyParses`). -/
def parsedId (h : Hit) : Int := (atoi h.ID).1

/-- A valid hit for a store of `n` records: its key parses and the position
`id - 1` lies in `[0, n)`, that is `1 ≤ id ≤ n`. -/
def validHit (n : Nat) (h : Hit) : Bool :=
  keyParses h && decide (0 ≤ parsedId h - 1) && decide (parsedId h - 1 < (n : Int))

/-- The guard of line 174 as the code evaluates it, on the value that `Atoi` returns
whether or not it reports an error. -/
def guardHolds (n : Nat) (h : Hit) : Bool :=
  decide ((atoi h.ID).1 > 0) && decide ((atoi h.ID).1 ≤ (n : Int))

/-- The record that a hit contributes: `products[id - 1]` when the guard of line 174
holds, nothing otherwise. -/
def pick (products : List Product) (h : Hit) : Option Product :=
  if guardHolds products.length h then storeAt products ((atoi h.ID).1 - 1) else none

/-- The store read that a hit causes, if any. -/
def pickRead (products : List Product) (h : Hit) : Option Effect :=
  if guardHolds products.length h then some (Effect.storeRead ((atoi h.ID).1 - 1)) else none

/-- An engine whose `Search` answers every request with the same hit list. -/
def constEngine (hits : List Hit) : Engine :=
  { Search := fun _ => Except.ok { Hits := hits, Total := hits.length } }

/-- An engine whose `Search` fails every request with the same error. -/
def failingEngine (e : GoError) : Engine :=
  { Search := fun _ => Except.error e }

/-- The value of a digit string read in base 10 from the accumulator `n`. -/
def decVal : Nat → List Byte → Nat
  | n, [] => n
  | n, b :: rest => decVal (n * 10 + (b.val - 48)) rest

/-- A byte that is an ASCII decimal digit. -/
def IsDigit (b : Byte) : Prop := 48 ≤ b.val ∧ b.val ≤ 57

/-- The hits that carry, in order, the document keys built at load time for the
positions `is`. -/
def hitsOf (store : List Product) (is : List Nat) : List Hit :=
  is.filterMap (fun i => ((productIDs store)[i]?).map Hit.mk)

/-- The records at the positions `is`, in order. -/
def recordsOf (store : List Product) (is : List Nat) : List Product :=
  is.filterMap (fun i => store[i]?)

/-- The `Search` calls of a trace, in order. -/
def searchCalls (tr : List Effect) : List SearchRequest :=
  tr.filterMap (fun e => match e with
    | Effect.searchCall req => some req
    | Effect.storeRead _ => none)

/-- A store of three records that satisfies the store invariant. -/
def sampleStore : List Product :=
  [{ ID := 1, Name := "A", Category := "x" }, { ID := 2, Name := "B", Category := "x" },
   { ID := 3, Name := "C", Category := "x" }]

/-- A hit list with the keys `"2"`, `"abc"`, `""`, `"99999999999999999999"` (a number that
overflows the `int`), `"7"` (out of range for three records), `"0"` and `"1"`. -/
def sampleHits : List Hit :=
  [{ ID := [50] }, { ID := [97, 98, 99] }, { ID := [] },
   { ID := [57, 57, 57, 57, 57, 57, 57, 57, 57, 57, 57, 57, 57, 57, 57, 57, 57, 57, 57, 57] },
   { ID := [55] }, { ID := [48] }, { ID := [49] }]

/-- Whether a byte is an ASCII decimal digit. -/
def isDigit (b : Byte) : Bool := decide (48 ≤ b.val) && decide (b.val ≤ 57)

/-- A string split into its sign (`true` for a leading `-`) and what follows an optional
leading `+` or `-`. -/
def splitSign (s : GoString) : Bool × List Byte :=
  match s with
  | [] => (false, [])
  | b :: t => if b = 45 then (true, t) else if b = 43 then (false, t) else (false, s)

/-- The integer that a signed decimal literal denotes. -/
def decimalVal (s : GoString) : Int :=
  if (splitSign s).1 = true then -((decVal 0 (splitSign s).2 : Nat) : Int)
  else ((decVal 0 (splitSign s).2 : Nat) : Int)

/-- What "the key parses as a decimal integer" means, stated without `strconv`: the
string is an optional sign followed by at least one digit, all of them decimal digits,
and the integer it denotes fits an `int`. -/
def decimalOk (s : GoString) : Bool :=
  !(splitSign s).2.isEmpty && (splitSign s).2.all isDigit &&
    decide (minInt ≤ decimalVal s) && decide (decimalVal s ≤ maxInt)

/-! ## The load as a transition system (lines 99-151)

`createIndex` starts `numWorkers` goroutines and then feeds the chunks to them over the
buffered channel `batches`; a worker whose `index.Batch` fails offers the error to the
one-slot channel `errChan` and returns.  The goroutines are interleaved at the
granularity of their channel operations: every action below is one channel
operation (or one return of `index.Batch`) of the coordinator or of one worker, and an
execution is a list of actions.  The outcome of each `index.Batch` call is part of the
action (`batchOk` or `batchFail e`), so the engine is unconstrained. -/

/-- Where a worker goroutine (lines 105-120) stands. -/
inductive Worker
  /-- At `for indices := range batches` (line 107), ready to receive. -/
  | waiting
  /-- Has received the chunk `c`; builds the write batch and calls `index.Batch` (108-112). -/
  | holding (c : Chunk)
  /-- The call `index.Batch` has returned `berr = e`; at the `select` of line 113. -/
  | failed (e : GoError)
  /-- Has returned; the deferred `wg.Done()` has run. -/
  | done
deriving DecidableEq, Repr

/-- Where the coordinator (the goroutine running `createIndex`) stands. -/
inductive Coord
  /-- At the head of the feeding loop (line 128) with loop variable `start`. -/
  | feeding (start : Nat)
  /-- Has left the loop and closed `batches` (line 140); blocked in `wg.Wait()` (141). -/
  | waiting
  /-- At the `select` of line 143. -/
  | finalSelect
  /-- The call `createIndex` has returned `r` (`none` is a nil error). -/
  | returned (r : Option GoError)
deriving DecidableEq, Repr

/-- The state of a load: the coordinator, the workers, the two channels, and two
history variables (`fed`, `failures`) that the program does not hold. -/
structure LoadState where
  /-- The coordinator. -/
  coord : Coord
  /-- The worker goroutines. -/
  workers : List Worker
  /-- The chunks buffered in the channel `batches` (capacity `queueBuffer`). -/
  batches : List Chunk
  /-- Whether `batches` has been closed. -/
  closed : Bool
  /-- The content of the channel `errChan` (capacity 1). -/
  errChan : Option GoError
  /-- History: the chunks sent on `batches` so far, in order. -/
  fed : List Chunk
  /-- History: the errors returned so far by failing `index.Batch` calls, in order. -/
  failures : List GoError
deriving DecidableEq, Repr

/-- One step of one goroutine. -/
inductive Action
  /-- Coordinator, line 134: the `select` sends the next chunk on `batches`. -/
  | feedSend
  /-- Coordinator, lines 135-137: the `select` receives from `errChan`, closes `batches`
  and returns the error. -/
  | feedRecvErr
  /-- Coordinator, lines 128 and 140: the loop condition fails, `batches` is closed. -/
  | feedExit
  /-- Coordinator, line 141: `wg.Wait()` returns. -/
  | waitDone
  /-- Coordinator, lines 143-151: the final `select` returns the error in `errChan`, or
  nil when `errChan` is empty. -/
  | finalSelect
  /-- Worker `w`, line 107: receives a chunk from `batches`. -/
  | workerRecv (w : Nat)
  /-- Worker `w`, line 107: `batches` is closed and empty, the loop ends and the worker
  returns. -/
  | workerExit (w : Nat)
  /-- Worker `w`, line 112: `index.Batch` returns nil. -/
  | batchOk (w : Nat)
  /-- Worker `w`, line 112: `index.Batch` returns the error `e`. -/
  | batchFail (w : Nat) (e : GoError)
  /-- Worker `w`, lines 113-117: the non-blocking send of `berr` on `errChan`, then the
  return. -/
  | workerReport (w : Nat)
deriving DecidableEq, Repr

/-- The state after the goroutines are started (line 121), before the first chunk. -/
def initState : LoadState :=
  { coord := Coord.feeding 0, workers := List.replicate numWorkers Worker.waiting,
    batches := [], closed := false, errChan := none, fed := [], failures := [] }

/-- Whether every worker has returned, which is when `wg.Wait()` returns. -/
def allDone (ws : List Worker) : Bool := ws.all (fun w => decide (w = Worker.done))

/-- Coordinator, line 134: the `select` sends the chunk `allIndices[start:end]` on
`batches`, which has room, and the loop goes on with `start += chunk`. -/
def stepFeedSend (n : Nat) (s : LoadState) : Option LoadState :=
  match s.coord with
  | Coord.feeding start =>
    if start < n ∧ s.batches.length < queueBuffer ∧ s.closed = false then
      some { s with
        coord := Coord.feeding (start + chunk)
        batches := s.batches ++ [{ start := start, stop := chunkEnd chunk n start }]
        fed := s.fed ++ [{ start := start, stop := chunkEnd chunk n start }] }
    else none
  | _ => none

/-- Coordinator, lines 135-137: the `select` receives `e` from `errChan`; `batches` is
closed and `createIndex` returns `e`. -/
def stepFeedRecvErr (n : Nat) (s : LoadState) : Option LoadState :=
  match s.coord, s.errChan with
  | Coord.feeding start, some e =>
    if start < n then
      some { s with coord := Coord.returned (some e), errChan := none, closed := true }
    else none
  | _, _ => none

/-- Coordinator, lines 128 and 140: the loop condition `start < len(allIndices)` fails;
`batches` is closed and the coordinator enters `wg.Wait()`. -/
def stepFeedExit (n : Nat) (s : LoadState) : Option LoadState :=
  match s.coord with
  | Coord.feeding start =>
    if start < n then none else some { s with coord := Coord.waiting, closed := true }
  | _ => none

/-- Coordinator, line 141: `wg.Wait()` returns once every worker has returned. -/
def stepWaitDone (s : LoadState) : Option LoadState :=
  match s.coord with
  | Coord.waiting =>
    if allDone s.workers = true then some { s with coord := Coord.finalSelect } else none
  | _ => none

/-- Coordinator, lines 143-151: the final `select` returns the error waiting in
`errChan`, or nil by the `default` case when `errChan` is empty. -/
def stepFinalSelect (s : LoadState) : Option LoadState :=
  match s.coord with
  | Coord.finalSelect => some { s with coord := Coord.returned s.errChan, errChan := none }
  | _ => none

/-- Worker `w`, line 107: receives the first chunk buffered in `batches`. -/
def stepWorkerRecv (s : LoadState) (w : Nat) : Option LoadState :=
  match s.workers[w]?, s.batches with
  | some Worker.waiting, c :: rest =>
    some { s with workers := s.workers.set w (Worker.holding c), batches := rest }
  | _, _ => none

/-- Worker `w`, line 107: `batches` is closed and empty; the `range` loop ends and the
worker returns. -/
def stepWorkerExit (s : LoadState) (w : Nat) : Option LoadState :=
  match s.workers[w]?, s.batches with
  | some Worker.waiting, [] =>
    if s.closed = true then some { s with workers := s.workers.set w Worker.done } else none
  | _, _ => none

/-- Worker `w`, line 112: `index.Batch` returns nil; the worker goes back to line 107. -/
def stepBatchOk (s : LoadState) (w : Nat) : Option LoadState :=
  match s.workers[w]? with
  | some (Worker.holding _) => some { s with workers := s.workers.set w Worker.waiting }
  | _ => none

/-- Worker `w`, line 112: `index.Batch` returns the error `e`. -/
def stepBatchFail (s : LoadState) (w : Nat) (e : GoError) : Option LoadState :=
  match s.workers[w]? with
  | some (Worker.holding _) =>
    some { s with workers := s.workers.set w (Worker.failed e), failures := s.failures ++ [e] }
  | _ => none

/-- The non-blocking send `select { case errChan <- berr: default: }` of lines 113-116:
the error is stored when the slot is empty and dropped otherwise. -/
def offer (slot : Option GoError) (e : GoError) : Option GoError :=
  match slot with
  | some e₀ => some e₀
  | none => some e

/-- Worker `w`, lines 113-117: the non-blocking send of `berr` on `errChan`, then the
return (the deferred `wg.Done()` touches the wait group only). -/
def stepWorkerReport (s : LoadState) (w : Nat) : Option LoadState :=
  match s.workers[w]? with
  | some (Worker.failed e) =>
    some { s with workers := s.workers.set w Worker.done, errChan := offer s.errChan e }
  | _ => none

/-- One step of the load on a catalog of `n` records; `none` when the action is not
enabled in the state (the goroutine is elsewhere, or blocked). -/
def step (n : Nat) (s : LoadState) : Action → Option LoadState
  | Action.feedSend => stepFeedSend n s
  | Action.feedRecvErr => stepFeedRecvErr n s
  | Action.feedExit => stepFeedExit n s
  | Action.waitDone => stepWaitDone s
  | Action.finalSelect => stepFinalSelect s
  | Action.workerRecv w => stepWorkerRecv s w
  | Action.workerExit w => stepWorkerExit s w
  | Action.batchOk w => stepBatchOk s w
  | Action.batchFail w e => stepBatchFail s w e
  | Action.workerReport w => stepWorkerReport s w

/-- An execution: the actions are taken in order; `none` when one of them is not
enabled. -/
def run (n : Nat) : LoadState → List Action → Option LoadState
  | s, [] => some s
  | s, a :: rest =>
    match step n s a with
    | some s' => run n s' rest
    | none => none

/-- The weight of a worker in the termination measure. -/
def Worker.weight : Worker → Nat
  | Worker.waiting => 1
  | Worker.holding _ => 2
  | Worker.failed _ => 1
  | Worker.done => 0

/-- The weight of the coordinator in the termination measure. -/
def Coord.weight (n : Nat) : Coord → Nat
  | Coord.feeding start => 3 * (n - start) + 3
  | Coord.waiting => 2
  | Coord.finalSelect => 1
  | Coord.returned _ => 0

/-- The termination measure of the load: it decreases with every step. -/
def loadMeasure (n : Nat) (s : LoadState) : Nat :=
  Coord.weight n s.coord + 2 * s.batches.length + (s.workers.map Worker.weight).sum

/-- The invariant of the load. -/
structure Inv (s : LoadState) : Prop where
  /-- The error in `errChan` was returned by a failing batch submission. -/
  errChan_mem : ∀ e, s.errChan = some e → e ∈ s.failures
  /-- The error that the load has returned was returned by a failing batch submission. -/
  returned_mem : ∀ e, s.coord = Coord.returned (some e) → e ∈ s.failures
  /-- The error a worker is about to report was returned by a failing batch submission. -/
  failed_mem : ∀ (w : Nat) (e : GoError), s.workers[w]? = some (Worker.failed e) → e ∈ s.failures
  /-- After a failure the error is on its way: held by a worker, in `errChan`, or
  returned. -/
  latched : s.failures ≠ [] →
    s.errChan.isSome = true ∨ (∃ e, s.coord = Coord.returned (some e)) ∨
      ∃ (w : Nat) (e : GoError), s.workers[w]? = some (Worker.failed e)
  /-- Past `wg.Wait()` every worker has returned. -/
  past_wait : s.coord = Coord.finalSelect ∨ s.coord = Coord.returned none →
    ∀ (w : Nat) (x : Worker), s.workers[w]? = some x → x = Worker.done
  /-- The channel `batches` is open exactly while the coordinator is in the loop. -/
  closed_iff : s.closed = false ↔ ∃ start, s.coord = Coord.feeding start
  /-- While `batches` is open a worker returns only after a failure. -/
  done_failed : s.closed = false → ∀ w : Nat, s.workers[w]? = some Worker.done → s.failures ≠ []
  /-- The number of workers. -/
  workers_length : s.workers.length = numWorkers
  /-- After a return of nil the channel `errChan` is empty. -/
  returned_none : s.coord = Coord.returned none → s.errChan = none

/-- The errors returned by the failing `index.Batch` calls of an execution, in order. -/
def failuresOf (acts : List Action) : List GoError :=
  acts.filterMap (fun a => match a with
    | Action.batchFail _ e => some e
    | _ => none)

/-- Whether the load has returned. -/
def hasReturned (s : LoadState) : Bool :=
  match s.coord with
  | Coord.returned _ => true
  | _ => false

/-- An execution on a catalog of 10000 records in which two workers fail: two chunks are
fed, workers 0 and 1 take one each, both submissions fail, worker 1 reports first (its
error fills `errChan`, the error of worker 0 is dropped), and the coordinator receives
the error in the feeding loop. -/
def sampleSchedule : List Action :=
  [Action.feedSend, Action.feedSend, Action.workerRecv 0, Action.workerRecv 1,
   Action.batchFail 0 "disk full", Action.batchFail 1 "index closed",
   Action.workerReport 1, Action.workerReport 0, Action.feedRecvErr]

/-- The state the execution `sampleSchedule` ends in. -/
def sampleFinal : LoadState :=
  { coord := Coord.returned (some "index closed"),
    workers := Worker.done :: Worker.done :: List.replicate 10 Worker.waiting,
    batches := [], closed := true, errChan := none,
    fed := [{ start := 0, stop := 4166 }, { start := 4166, stop := 8332 }],
    failures := ["disk full", "index closed"] }

/-- The chunks fed so far are the beginning of what the partition loop sends: whatever
the loop sends from the current `start` on, started at 0 it sends the fed chunks
followed by that; once the loop has been left by its condition, the fed chunks are all
it sends; and at any time the fed chunks are a prefix of what it sends. -/
def FedInv (n : Nat) (s : LoadState) : Prop :=
  (∀ start, s.coord = Coord.feeding start → ∀ fuel rest,
    feedLoop chunk n fuel start = some rest →
      ∃ fuel', feedLoop chunk n fuel' 0 = some (s.fed ++ rest)) ∧
  (s.coord = Coord.waiting ∨ s.coord = Coord.finalSelect ∨ s.coord = Coord.returned none →
    ∃ fuel', feedLoop chunk n fuel' 0 = some s.fed) ∧
  (∃ rest fuel', feedLoop chunk n fuel' 0 = some (s.fed ++ rest))

/-! ## Lemmas on the partition loop -/

theorem goSlice_allIndices (n lo hi : Nat) (h : hi ≤ n) :
    goSlice (allIndices n) lo hi = List.range' lo (hi - lo) := by
  unfold goSlice allIndices
  apply List.ext_getElem?
  intro k
  rw [List.getElem?_take, List.getElem?_drop, List.range_eq_range']
  by_cases hk : k < hi - lo
  · rw [if_pos hk, List.getElem?_range' _ _ (by omega), List.getElem?_range' _ _ hk]
    simp
  · rw [if_neg hk]
    exact (List.getElem?_eq_none (by simpa using Nat.le_of_not_lt hk)).symm

theorem chunkEnd_le (len n start : Nat) : chunkEnd len n start ≤ n := by
  unfold chunkEnd
  split <;> omega

theorem chunkEnd_gt (len n start : Nat) (hlen : 0 < len) (h : start < n) :
    start < chunkEnd len n start := by
  unfold chunkEnd
  split <;> omega

/-- With a positive chunk length the loop started at `start` finishes within
`n - start + 1` iterations and what it sends is a chain over `[start, n)`. -/
theorem feedLoop_chain (len n : Nat) (hlen : 0 < len) :
    ∀ fuel start, n - start < fuel →
      ∃ cs, feedLoop len n fuel start = some cs ∧ Chain len n start cs := by
  intro fuel
  induction fuel with
  | zero => intro start h; omega
  | succ fuel ih =>
    intro start h
    by_cases hs : start < n
    · obtain ⟨rest, hrest, hchain⟩ := ih (start + len) (by omega)
      refine ⟨{ start := start, stop := chunkEnd len n start } :: rest, ?_, ?_⟩
      · simp [feedLoop, hs, hrest]
      · have hgt := chunkEnd_gt len n start hlen hs
        have hle := chunkEnd_le len n start
        cases rest with
        | nil =>
          have hn : n ≤ start + len := hchain
          refine ⟨rfl, hgt, hle, ?_, ?_, ?_, ?_⟩
          · simp only [Chunk.size, chunkEnd]; split <;> omega
          · intro hne; exact absurd rfl hne
          · intro _; simp only [chunkEnd]; split <;> omega
          · intro hne; exact absurd rfl hne
        | cons d ds =>
          obtain ⟨hd1, hd2, hd3, _⟩ := hchain
          have hlt : start + len < n := by omega
          have hce : chunkEnd len n start = start + len := by
            simp only [chunkEnd]; split <;> omega
          refine ⟨rfl, hgt, hle, ?_, ?_, ?_, ?_⟩
          · simp only [Chunk.size, hce]; omega
          · intro _; simp only [Chunk.size, hce]; omega
          · intro hne; exact absurd hne (by simp)
          · intro _
            simp only [hce]
            exact ⟨hd1, hd2, hd3, ‹_›⟩
    · exact ⟨[], by simp [feedLoop, hs], by simpa [Chain] using Nat.le_of_not_lt hs⟩

/-- More fuel does not change what the loop sends. -/
theorem feedLoop_fuel_irrelevant (len n : Nat) :
    ∀ fuel₁ fuel₂ start cs₁ cs₂, feedLoop len n fuel₁ start = some cs₁ →
      feedLoop len n fuel₂ start = some cs₂ → cs₁ = cs₂ := by
  intro fuel₁
  induction fuel₁ with
  | zero => intro fuel₂ start cs₁ cs₂ h; simp [feedLoop] at h
  | succ f ih =>
    intro fuel₂ start cs₁ cs₂ h₁ h₂
    cases fuel₂ with
    | zero => simp [feedLoop] at h₂
    | succ g =>
      by_cases hs : start < n
      · simp only [feedLoop, hs, if_true] at h₁ h₂
        cases hr₁ : feedLoop len n f (start + len) with
        | none => simp [hr₁] at h₁
        | some r₁ =>
          cases hr₂ : feedLoop len n g (start + len) with
          | none => simp [hr₂] at h₂
          | some r₂ =>
            simp only [hr₁, hr₂, Option.some.injEq] at h₁ h₂
            rw [← h₁, ← h₂, ih g (start + len) r₁ r₂ hr₁ hr₂]
      · simp only [feedLoop, hs, if_false, Option.some.injEq] at h₁ h₂
        rw [← h₁, ← h₂]

theorem chain_start_le (len n : Nat) :
    ∀ cs a, Chain len n a cs → ∀ d ∈ cs, a ≤ d.start := by
  intro cs
  induction cs with
  | nil => intro a _ d hd; simp at hd
  | cons c cs ih =>
    intro a h d hd
    obtain ⟨h1, h2, _, _, _, _, h7⟩ := h
    rcases List.mem_cons.1 hd with rfl | hmem
    · omega
    · have hne : cs ≠ [] := List.ne_nil_of_mem hmem
      have := ih c.stop (h7 hne) d hmem
      omega

theorem chain_flatten (len n : Nat) :
    ∀ cs a, a ≤ n → Chain len n a cs →
      (cs.map (Chunk.indices n)).flatten = List.range' a (n - a) := by
  intro cs
  induction cs with
  | nil =>
    intro a _ h
    have : n ≤ a := h
    simp [show n - a = 0 by omega]
  | cons c cs ih =>
    intro a ha h
    obtain ⟨h1, h2, h3, _, _, h6, h7⟩ := h
    simp only [List.map_cons, List.flatten_cons, Chunk.indices]
    rw [goSlice_allIndices n c.start c.stop h3]
    by_cases hne : cs = []
    · subst hne
      simp [h6 rfl, h1]
    · rw [ih c.stop h3 (h7 hne), h1]
      have := List.range'_append a (c.stop - a) (n - c.stop) 1
      simp only [Nat.one_mul] at this
      rw [show a + (c.stop - a) = c.stop by omega] at this
      rw [this]
      congr 1
      omega

theorem chain_length (len n : Nat) (hlen : 0 < len) :
    ∀ cs a, Chain len n a cs → cs.length = (n - a + len - 1) / len := by
  intro cs
  induction cs with
  | nil =>
    intro a h
    have : n ≤ a := h
    rw [show n - a + len - 1 = len - 1 by omega]
    simp [Nat.div_eq_of_lt (show len - 1 < len by omega)]
  | cons c cs ih =>
    intro a h
    obtain ⟨h1, h2, h3, h4, h5, h6, h7⟩ := h
    simp only [Chunk.size] at h4 h5
    by_cases hne : cs = []
    · subst hne
      have h6 := h6 rfl
      have e : n - a + len - 1 = (n - a - 1) + len := by omega
      rw [e, Nat.add_div_right _ hlen, Nat.div_eq_of_lt (by omega)]
      rfl
    · have h5 := h5 hne
      have hc := h7 hne
      have hlt : c.stop ≤ n := h3
      rw [List.length_cons, ih c.stop hc]
      have e : n - a + len - 1 = (n - c.stop + len - 1) + len := by omega
      rw [e, Nat.add_div_right _ hlen]

theorem chain_cover_once (len n : Nat) :
    ∀ cs a i, Chain len n a cs → a ≤ i → i < n →
      (cs.filter (fun c => c.covers i)).length = 1 := by
  intro cs
  induction cs with
  | nil => intro a i h; have : n ≤ a := h; omega
  | cons c cs ih =>
    intro a i h hai hin
    obtain ⟨h1, h2, h3, _, _, h6, h7⟩ := h
    by_cases hi : i < c.stop
    · have hcov : c.covers i = true := by simp [Chunk.covers, h1, hai, hi]
      have hrest : cs.filter (fun c => c.covers i) = [] := by
        rw [List.filter_eq_nil_iff]
        intro d hd
        have hne : cs ≠ [] := List.ne_nil_of_mem hd
        have := chain_start_le len n cs c.stop (h7 hne) d hd
        simp [Chunk.covers]
        omega
      simp [List.filter_cons, hcov, hrest]
    · have hcov : c.covers i = false := by simp [Chunk.covers, hi]
      have hne : cs ≠ [] := by
        intro he
        have := h6 he
        omega
      simp only [List.filter_cons, hcov]
      exact ih c.stop i (h7 hne) (by omega) hin

theorem chain_adjacent (len n : Nat) :
    ∀ cs a k c d, Chain len n a cs → cs[k]? = some c → cs[k + 1]? = some d →
      d.start = c.stop ∧ c.size = len := by
  intro cs
  induction cs with
  | nil => intro a k c d _ h; simp at h
  | cons e cs ih =>
    intro a k c d h hc hd
    obtain ⟨_, _, _, _, h5, _, h7⟩ := h
    have hne : cs ≠ [] := by
      intro he; subst he; simp at hd
    cases k with
    | zero =>
      simp only [List.getElem?_cons_zero, Option.some.injEq] at hc
      subst hc
      rw [List.getElem?_cons_succ] at hd
      cases cs with
      | nil => simp at hd
      | cons f fs =>
        simp only [List.getElem?_cons_zero, Option.some.injEq] at hd
        subst hd
        exact ⟨(h7 hne).1, h5 hne⟩
    | succ k =>
      rw [List.getElem?_cons_succ] at hc hd
      exact ih e.stop k c d (h7 hne) hc hd

theorem chain_mem_size (len n : Nat) :
    ∀ cs a, Chain len n a cs → ∀ c ∈ cs, 1 ≤ c.size ∧ c.size ≤ len ∧ c.stop ≤ n := by
  intro cs
  induction cs with
  | nil => intro a _ c hc; simp at hc
  | cons e cs ih =>
    intro a h c hc
    obtain ⟨h1, h2, h3, h4, _, _, h7⟩ := h
    rcases List.mem_cons.1 hc with rfl | hmem
    · simp only [Chunk.size] at h4 ⊢
      omega
    · exact ih e.stop (h7 (List.ne_nil_of_mem hmem)) c hmem

theorem chain_head (len n : Nat) (cs : List Chunk) (a : Nat) (h : Chain len n a cs)
    (han : a < n) : ∃ c, cs.head? = some c ∧ c.start = a := by
  cases cs with
  | nil => have : n ≤ a := h; omega
  | cons c cs => exact ⟨c, rfl, h.1⟩

theorem chain_getLast (len n : Nat) :
    ∀ cs a, Chain len n a cs → a < n → ∃ c, cs.getLast? = some c ∧ c.stop = n := by
  intro cs
  induction cs with
  | nil => intro a h han; have : n ≤ a := h; omega
  | cons c cs ih =>
    intro a h han
    obtain ⟨_, _, h3, _, _, h6, h7⟩ := h
    cases cs with
    | nil => exact ⟨c, rfl, h6 rfl⟩
    | cons d ds =>
      have hc := h7 (by simp)
      rw [List.getLast?_cons_cons]
      exact ih c.stop hc (by have := hc.2.1; have := hc.2.2.1; omega)

/-- With chunk length zero the loop never finishes on a non-empty catalog. -/
theorem feedLoop_zero_chunk (n start : Nat) (h : start < n) :
    ∀ fuel, feedLoop 0 n fuel start = none := by
  intro fuel
  induction fuel with
  | zero => rfl
  | succ f ih => simp [feedLoop, h, ih]

/-- Everything the partition theorems use, for one positive chunk length. -/
theorem partition_facts (len n : Nat) (hlen : 0 < len) :
    ∃ cs, feedLoop len n (n + 1) 0 = some cs ∧ Chain len n 0 cs ∧
      (∀ fuel cs', feedLoop len n fuel 0 = some cs' → cs' = cs) := by
  obtain ⟨cs, hcs, hchain⟩ := feedLoop_chain len n hlen (n + 1) 0 (by omega)
  exact ⟨cs, hcs, hchain, fun fuel cs' h =>
    feedLoop_fuel_irrelevant len n fuel (n + 1) 0 cs' cs h hcs⟩

theorem chunk_eq : chunk = 4166 := by decide

theorem addInt_eq (a b : Int) (h0 : 0 ≤ a + b) (h1 : a + b ≤ 9223372036854775807) :
    addInt a b = a + b := by
  unfold addInt
  norm_num
  omega

/-- As long as `n + chunk` fits an `int` (64 bits) no sum of the feeding loop wraps
around: the loop over machine integers sends the chunks of `feedLoop`. -/
theorem feedLoopInt_eq (len n : Nat) (hfit : (n : Int) + (len : Int) ≤ 9223372036854775807) :
    ∀ fuel start : Nat, feedLoopInt (len : Int) (n : Int) fuel (start : Int) =
      (feedLoop len n fuel start).map
        (List.map (fun c : Chunk => ((c.start : Int), (c.stop : Int)))) := by
  intro fuel
  induction fuel with
  | zero => intro start; rfl
  | succ fuel ih =>
    intro start
    by_cases hs : start < n
    · have hs' : (start : Int) < (n : Int) := by exact_mod_cast hs
      have hadd : addInt (start : Int) (len : Int) = ((start + len : Nat) : Int) := by
        rw [addInt_eq _ _ (by omega) (by omega)]
        push_cast
        rfl
      rw [feedLoopInt, if_pos hs', hadd, ih (start + len), feedLoop, if_pos hs]
      cases feedLoop len n fuel (start + len) with
      | none => rfl
      | some rest =>
        simp only [Option.map_some', List.map_cons, Option.some.injEq, List.cons.injEq,
          Prod.mk.injEq, true_and, and_true]
        unfold chunkEnd
        by_cases hgt : start + len > n
        · have hgt' : ((start + len : Nat) : Int) > (n : Int) := by exact_mod_cast hgt
          rw [if_pos hgt, if_pos hgt']
        · have hgt' : ¬ ((start + len : Nat) : Int) > (n : Int) := by
            intro h; exact hgt (by exact_mod_cast h)
          rw [if_neg hgt, if_neg hgt']
    · have hs' : ¬ (start : Int) < (n : Int) := by
        intro h; exact hs (by exact_mod_cast h)
      rw [feedLoopInt, if_neg hs', feedLoop, if_neg hs]
      rfl

/-! ## Lemmas on `strconv` -/

theorem byte_sub_48_digit (b : Byte) (h : IsDigit b) :
    ¬ ((b - 48 : Byte) > 9) ∧ ((b - 48 : Byte).val : Int) = ((b.val - 48 : Nat) : Int) := by
  obtain ⟨h1, h2⟩ := h
  have hv : (b - 48 : Byte).val = b.val - 48 := by
    rw [Fin.sub_def]
    show (256 - 48 + b.val) % 256 = b.val - 48
    omega
  refine ⟨?_, by rw [hv]⟩
  rw [gt_iff_lt, Fin.lt_def, hv]
  show ¬ (9 < b.val - 48)
  omega

theorem atoiFastLoop_cons (b : Byte) (rest : List Byte) (n : Int) :
    atoiFastLoop (b :: rest) n =
      if (b - 48 : Byte) > 9 then none
      else atoiFastLoop rest (n * 10 + ((b - 48 : Byte).val : Int)) := rfl

theorem atoiFastLoop_digits :
    ∀ (ds : List Byte) (n : Nat), (∀ b ∈ ds, IsDigit b) →
      atoiFastLoop ds (n : Int) = some ((decVal n ds : Nat) : Int) := by
  intro ds
  induction ds with
  | nil => intro n _; rfl
  | cons b rest ih =>
    intro n h
    have hb := byte_sub_48_digit b (h b (List.mem_cons_self _ _))
    have hrest : ∀ c ∈ rest, IsDigit c := fun c hc => h c (List.mem_cons_of_mem _ hc)
    have ih' := ih (n * 10 + (b.val - 48)) hrest
    rw [atoiFastLoop_cons, if_neg hb.1, hb.2]
    have e : decVal n (b :: rest) = decVal (n * 10 + (b.val - 48)) rest := rfl
    rw [e, ← ih']
    congr 1

theorem le_decVal : ∀ (ds : List Byte) (n : Nat), n ≤ decVal n ds := by
  intro ds
  induction ds with
  | nil => intro n; exact Nat.le_refl n
  | cons b rest ih =>
    intro n
    have := ih (n * 10 + (b.val - 48))
    have e : decVal n (b :: rest) = decVal (n * 10 + (b.val - 48)) rest := rfl
    omega

theorem parseUintLoop_digit_step (b : Byte) (rest : List Byte) (n : Nat) (hb : IsDigit b)
    (hn : n * 10 + (b.val - 48) ≤ maxUint64) :
    parseUintLoop (b :: rest) n = parseUintLoop rest (n * 10 + (b.val - 48)) := by
  obtain ⟨hb1, hb2⟩ := hb
  have hmu : maxUint64 = 18446744073709551615 := rfl
  rw [hmu] at hn
  have e1 : (n * 10) % 2 ^ 64 = n * 10 := Nat.mod_eq_of_lt (by norm_num; omega)
  have e2 : (n * 10 + (b.val - 48)) % 2 ^ 64 = n * 10 + (b.val - 48) :=
    Nat.mod_eq_of_lt (by norm_num; omega)
  have hd : ¬ (b.val - 48 ≥ 10) := by omega
  have hcut : ¬ (n ≥ maxUint64 / 10 + 1) := by rw [hmu]; omega
  have hov : ¬ (n * 10 + (b.val - 48) < n * 10 ∨ n * 10 + (b.val - 48) > maxUint64) := by
    rw [hmu]; omega
  rw [parseUintLoop]
  simp only [hb1, hb2, and_self, if_true]
  rw [if_neg hd, if_neg hcut, e1, e2, if_neg hov]

theorem parseUintLoop_digits :
    ∀ (ds : List Byte) (n : Nat), (∀ b ∈ ds, IsDigit b) → decVal n ds ≤ maxUint64 →
      parseUintLoop ds n = (decVal n ds, none) := by
  intro ds
  induction ds with
  | nil => intro n _ _; rfl
  | cons b rest ih =>
    intro n h hmax
    have hb := h b (List.mem_cons_self _ _)
    have hrest : ∀ c ∈ rest, IsDigit c := fun c hc => h c (List.mem_cons_of_mem _ hc)
    have hstep := le_decVal rest (n * 10 + (b.val - 48))
    have e : decVal n (b :: rest) = decVal (n * 10 + (b.val - 48)) rest := rfl
    rw [e] at hmax ⊢
    rw [parseUintLoop_digit_step b rest n hb (Nat.le_trans hstep hmax)]
    exact ih _ hrest hmax

theorem decVal_append : ∀ (a c : List Byte) (n : Nat),
    decVal n (a ++ c) = decVal (decVal n a) c := by
  intro a
  induction a with
  | nil => intro c n; rfl
  | cons b rest ih => intro c n; exact ih c _

theorem digitByte_isDigit (d : Nat) (h : d < 10) :
    IsDigit (digitByte d) ∧ (digitByte d).val - 48 = d := by
  have hv : (digitByte d).val = 48 + d := by
    show (48 + d % 10) % 256 = 48 + d
    omega
  exact ⟨⟨by omega, by omega⟩, by omega⟩

/-- The digit loop of `formatBits` writes, in front of `acc`, a non-empty string of
digits whose value is `u`. -/
theorem formatBitsLoop_spec :
    ∀ (fuel u : Nat) (acc : List Byte), u < 10 ^ (fuel + 1) →
      ∃ ds, formatBitsLoop fuel u acc = ds ++ acc ∧ ds ≠ [] ∧
        (∀ b ∈ ds, IsDigit b) ∧ decVal 0 ds = u := by
  intro fuel
  induction fuel with
  | zero =>
    intro u acc hu
    have hu' : u < 10 := by simpa using hu
    obtain ⟨hd, hv⟩ := digitByte_isDigit u hu'
    refine ⟨[digitByte u], rfl, by simp, ?_, ?_⟩
    · intro b hb
      rw [List.mem_singleton.1 hb]
      exact hd
    · show 0 * 10 + ((digitByte u).val - 48) = u
      omega
  | succ fuel ih =>
    intro u acc hu
    by_cases h10 : u ≥ 10
    · have hq : u / 10 < 10 ^ (fuel + 1) := by
        rw [Nat.div_lt_iff_lt_mul (by decide)]
        rw [pow_succ] at hu
        exact hu
      obtain ⟨ds, hds, hne, hdig, hval⟩ := ih (u / 10) (digitByte (u % 10) :: acc) hq
      obtain ⟨hd, hv⟩ := digitByte_isDigit (u % 10) (Nat.mod_lt _ (by decide))
      refine ⟨ds ++ [digitByte (u % 10)], ?_, by simp, ?_, ?_⟩
      · rw [formatBitsLoop, if_pos h10, hds, List.append_assoc, List.singleton_append]
      · intro b hb
        rcases List.mem_append.1 hb with hb | hb
        · exact hdig b hb
        · rw [List.mem_singleton.1 hb]
          exact hd
      · rw [decVal_append, hval]
        show u / 10 * 10 + ((digitByte (u % 10)).val - 48) = u
        omega
    · have hu' : u < 10 := by omega
      obtain ⟨hd, hv⟩ := digitByte_isDigit u hu'
      refine ⟨[digitByte u], ?_, by simp, ?_, ?_⟩
      · rw [formatBitsLoop, if_neg h10, List.singleton_append]
      · intro b hb
        rw [List.mem_singleton.1 hb]
        exact hd
      · show 0 * 10 + ((digitByte u).val - 48) = u
        omega

/-- On a non-empty string of digits whose value fits an `int`, `Atoi` returns that
value and a nil error, by the fast path or by `ParseInt`. -/
theorem atoi_digits (ds : List Byte) (hne : ds ≠ []) (hdig : ∀ b ∈ ds, IsDigit b)
    (hmax : ((decVal 0 ds : Nat) : Int) ≤ maxInt) :
    atoi ds = (((decVal 0 ds : Nat) : Int), none) := by
  cases ds with
  | nil => exact absurd rfl hne
  | cons b t =>
    obtain ⟨hb1, hb2⟩ := hdig b (List.mem_cons_self _ _)
    have h45 : b ≠ 45 := by
      intro h; rw [h] at hb1; exact absurd hb1 (by decide)
    have h43 : b ≠ 43 := by
      intro h; rw [h] at hb1; exact absurd hb1 (by decide)
    have hsign : ¬ (b = 45 ∨ b = 43) := fun h => h.elim h45 h43
    have hmi : maxInt = 9223372036854775807 := rfl
    rw [hmi] at hmax
    unfold atoi
    split
    · have hl := atoiFastLoop_digits (b :: t) 0 hdig
      rw [Nat.cast_zero] at hl
      have hhead : ¬ ((b :: t).head? = some 45) := by
        simp only [List.head?_cons, Option.some.injEq]
        exact h45
      show (if b = 45 ∨ b = 43 then _ else atoiFastBody (b :: t) (b :: t)) = _
      rw [if_neg hsign, atoiFastBody, hl]
      simp only [if_neg hhead]
    · have hl := parseUintLoop_digits (b :: t) 0 hdig (by
        have : maxUint64 = 18446744073709551615 := rfl
        rw [this]; omega)
      have hpu : parseUint (b :: t) = (decVal 0 (b :: t), none) := by
        rw [parseUint, if_neg (List.cons_ne_nil _ _), hl]
      show (if b = 43 then _ else if b = 45 then _ else parseIntBody false (b :: t)) = _
      rw [if_neg h43, if_neg h45, parseIntBody, hpu]
      have hlt : decVal 0 (b :: t) < 9223372036854775808 := by omega
      simp [hlt]

/-- Key round trip of `strconv`: `Atoi(Itoa(i)) = i` with a nil error, for an `int`
that is not negative. -/
theorem atoi_itoa (i : Int) (h0 : 0 ≤ i) (hmax : i ≤ maxInt) : atoi (itoa i) = (i, none) := by
  have hmi : maxInt = 9223372036854775807 := rfl
  have hu : i.natAbs < 10 ^ (20 + 1) := by
    rw [hmi] at hmax
    norm_num
    omega
  obtain ⟨ds, hds, hne, hdig, hval⟩ := formatBitsLoop_spec 20 i.natAbs [] hu
  have hi : itoa i = ds := by
    rw [itoa, if_neg (not_lt.2 h0), hds, List.append_nil]
  have hcast : ((decVal 0 ds : Nat) : Int) = i := by
    rw [hval]; omega
  rw [hi, atoi_digits ds hne hdig (by rw [hcast]; exact hmax), hcast]

theorem atoiFastBody_err (s0 s : GoString) :
    (atoiFastBody s0 s).2 ≠ none → (atoiFastBody s0 s).1 = 0 := by
  unfold atoiFastBody
  split
  · intro _; rfl
  · intro h; exact absurd rfl h

theorem atoiFast_err (s : GoString) : (atoiFast s).2 ≠ none → (atoiFast s).1 = 0 := by
  unfold atoiFast
  split
  · intro _; rfl
  · split
    · split
      · intro _; rfl
      · exact atoiFastBody_err _ _
    · exact atoiFastBody_err _ _

theorem parseIntBody_err (neg : Bool) (s : GoString) : (parseIntBody neg s).2 ≠ none →
    (parseIntBody neg s).1 = 0 ∨ (parseIntBody neg s).1 = maxInt ∨
      (parseIntBody neg s).1 = minInt := by
  unfold parseIntBody
  split
  · intro _; left; rfl
  · split
    · intro _; right; left; rfl
    · split
      · intro _; right; right; rfl
      · intro h; exact absurd rfl h

theorem parseInt_err (s : GoString) : (parseInt s).2 ≠ none →
    (parseInt s).1 = 0 ∨ (parseInt s).1 = maxInt ∨ (parseInt s).1 = minInt := by
  unfold parseInt
  split
  · intro _; left; rfl
  · split
    · exact parseIntBody_err _ _
    · split
      · exact parseIntBody_err _ _
      · exact parseIntBody_err _ _

/-- When `Atoi` reports an error the value it returns is 0 (syntax), or the largest or
the smallest `int` (range). -/
theorem atoi_err_value (s : GoString) (h : (atoi s).2 ≠ none) :
    (atoi s).1 = 0 ∨ (atoi s).1 = maxInt ∨ (atoi s).1 = minInt := by
  unfold atoi at h ⊢
  split
  · rename_i hlen
    rw [if_pos hlen] at h
    exact Or.inl (atoiFast_err s h)
  · rename_i hlen
    rw [if_neg hlen] at h
    exact parseInt_err s h

/-! ## `Atoi` against the meaning of a decimal literal -/

theorem isDigit_iff (b : Byte) : isDigit b = true ↔ IsDigit b := by
  simp [isDigit, IsDigit]

theorem byte_sub_48_not_digit (b : Byte) (h : ¬ IsDigit b) : (b - 48 : Byte) > 9 := by
  have hv : (b - 48 : Byte).val = (256 - 48 + b.val) % 256 := by
    rw [Fin.sub_def]
    rfl
  rw [gt_iff_lt, Fin.lt_def, hv]
  show 9 < (256 - 48 + b.val) % 256
  have hb := b.isLt
  unfold IsDigit at h
  omega

/-- The digit loop of the fast path succeeds exactly on strings of digits. -/
theorem atoiFastLoop_eq (ds : List Byte) (n : Nat) :
    atoiFastLoop ds (n : Int) =
      if ds.all isDigit = true then some ((decVal n ds : Nat) : Int) else none := by
  induction ds generalizing n with
  | nil => rfl
  | cons b rest ih =>
    by_cases hb : IsDigit b
    · have hb' := byte_sub_48_digit b hb
      have hd : isDigit b = true := (isDigit_iff b).2 hb
      rw [atoiFastLoop_cons, if_neg hb'.1, hb'.2]
      have e : decVal n (b :: rest) = decVal (n * 10 + (b.val - 48)) rest := rfl
      have ih' := ih (n * 10 + (b.val - 48))
      have hcast : ((n : Int) * 10 + ((b.val - 48 : Nat) : Int)) =
          ((n * 10 + (b.val - 48) : Nat) : Int) := by push_cast; rfl
      rw [hcast, ih', e]
      simp only [List.all_cons, hd, Bool.true_and]
    · have hb' := byte_sub_48_not_digit b hb
      have hd : isDigit b = false := by
        cases h : isDigit b with
        | false => rfl
        | true => exact absurd ((isDigit_iff b).1 h) hb
      rw [atoiFastLoop_cons, if_pos hb']
      simp only [List.all_cons, hd, Bool.false_and, Bool.false_eq_true, if_false]

theorem decVal_lt_pow (ds : List Byte) (hdig : ds.all isDigit = true) :
    ∀ n : Nat, decVal n ds < (n + 1) * 10 ^ ds.length := by
  induction ds with
  | nil =>
    intro n
    rw [List.length_nil, pow_zero]
    show n < (n + 1) * 1
    omega
  | cons b rest ih =>
    intro n
    simp only [List.all_cons, Bool.and_eq_true] at hdig
    obtain ⟨hb1, hb2⟩ := (isDigit_iff b).1 hdig.1
    have h := ih hdig.2 (n * 10 + (b.val - 48))
    have e : decVal n (b :: rest) = decVal (n * 10 + (b.val - 48)) rest := rfl
    rw [e, List.length_cons, pow_succ]
    have hle : (n * 10 + (b.val - 48) + 1) * 10 ^ rest.length ≤
        (n + 1) * (10 ^ rest.length * 10) := by
      have : n * 10 + (b.val - 48) + 1 ≤ (n + 1) * 10 := by omega
      calc (n * 10 + (b.val - 48) + 1) * 10 ^ rest.length
          ≤ ((n + 1) * 10) * 10 ^ rest.length := Nat.mul_le_mul_right _ this
        _ = (n + 1) * (10 ^ rest.length * 10) := by ring
    omega

/-- A string of at most 18 digits denotes a number below `10 ^ 18`: the `int` of the
fast path does not wrap. -/
theorem decVal_lt_of_short (ds : List Byte) (hdig : ds.all isDigit = true)
    (hlen : ds.length ≤ 18) : decVal 0 ds < 1000000000000000000 := by
  have h := decVal_lt_pow ds hdig 0
  have hp : 10 ^ ds.length ≤ 10 ^ 18 := Nat.pow_le_pow_right (by decide) hlen
  have e : (10 : Nat) ^ 18 = 1000000000000000000 := by norm_num
  omega

theorem atoiFastBody_eq (s0 s : GoString) :
    atoiFastBody s0 s =
      if s.all isDigit = true then
        (if s0.head? = some 45 then -((decVal 0 s : Nat) : Int) else ((decVal 0 s : Nat) : Int),
          none)
      else (0, some NumError.ErrSyntax) := by
  have h := atoiFastLoop_eq s 0
  rw [Nat.cast_zero] at h
  unfold atoiFastBody
  rw [h]
  by_cases hd : s.all isDigit = true
  · rw [if_pos hd, if_pos hd]
  · rw [if_neg hd, if_neg hd]

theorem all_isDigit_nil_isEmpty (t : List Byte) (h : t.length < 1) : t = [] := by
  cases t with
  | nil => rfl
  | cons b t => simp at h

/-- The fast path of `Atoi` agrees with the meaning of a decimal literal on the strings
it is used for (fewer than 19 bytes). -/
theorem atoiFast_eq (s : GoString) (hlen : s.length < 19) :
    atoiFast s =
      if decimalOk s = true then (decimalVal s, none) else (0, some NumError.ErrSyntax) := by
  have hmi : maxInt = 9223372036854775807 := rfl
  have hmn : minInt = -9223372036854775808 := rfl
  cases s with
  | nil => rfl
  | cons b t =>
    have hlt : t.length < 18 := by
      rw [List.length_cons] at hlen
      omega
    by_cases h45 : b = 45
    · have hsplit : splitSign (b :: t) = (true, t) := by
        rw [splitSign, if_pos h45]
      have hval : decimalVal (b :: t) = -((decVal 0 t : Nat) : Int) := by
        simp only [decimalVal, hsplit, if_true]
      have hhead : (b :: t).head? = some 45 := by rw [h45]; rfl
      rw [atoiFast, if_pos (Or.inl h45)]
      by_cases hemp : t.length < 1
      · have ht := all_isDigit_nil_isEmpty t hemp
        have hok : decimalOk (b :: t) = false := by
          unfold decimalOk
          rw [hsplit, ht]
          rfl
        rw [if_pos hemp, hok]
        rfl
      · rw [if_neg hemp, atoiFastBody_eq, hhead]
        have hne : t.isEmpty = false := by
          cases t with
          | nil => exact absurd (by decide) hemp
          | cons c t => rfl
        by_cases hd : t.all isDigit = true
        · have hb := decVal_lt_of_short t hd (by omega)
          have hok : decimalOk (b :: t) = true := by
            simp only [decimalOk, hsplit, hne, hd, hval, Bool.not_false, Bool.true_and,
              Bool.and_eq_true, decide_eq_true_eq, hmi, hmn]
            constructor <;> omega
          rw [if_pos hd, hok, hval]
          simp
        · have hok : decimalOk (b :: t) = false := by
            have : t.all isDigit = false := by
              cases h : t.all isDigit with
              | false => rfl
              | true => exact absurd h hd
            simp only [decimalOk, hsplit, this, Bool.and_false, Bool.false_and]
          rw [if_neg hd, hok]
          rfl
    · by_cases h43 : b = 43
      · have hsplit : splitSign (b :: t) = (false, t) := by
          rw [splitSign, if_neg h45, if_pos h43]
        have hval : decimalVal (b :: t) = ((decVal 0 t : Nat) : Int) := by
          simp only [decimalVal, hsplit, Bool.false_eq_true, if_false]
        have hhead : ¬ ((b :: t).head? = some 45) := by
          simp only [List.head?_cons, Option.some.injEq]
          exact h45
        rw [atoiFast, if_pos (Or.inr h43)]
        by_cases hemp : t.length < 1
        · have ht := all_isDigit_nil_isEmpty t hemp
          have hok : decimalOk (b :: t) = false := by
            unfold decimalOk
            rw [hsplit, ht]
            rfl
          rw [if_pos hemp, hok]
          rfl
        · rw [if_neg hemp, atoiFastBody_eq, if_neg hhead]
          have hne : t.isEmpty = false := by
            cases t with
            | nil => exact absurd (by decide) hemp
            | cons c t => rfl
          by_cases hd : t.all isDigit = true
          · have hb := decVal_lt_of_short t hd (by omega)
            have hok : decimalOk (b :: t) = true := by
              simp only [decimalOk, hsplit, hne, hd, hval, Bool.not_false, Bool.true_and,
                Bool.and_eq_true, decide_eq_true_eq, hmi, hmn]
              constructor <;> omega
            rw [if_pos hd, hok, hval]
            simp
          · have hok : decimalOk (b :: t) = false := by
              have : t.all isDigit = false := by
                cases h : t.all isDigit with
                | false => rfl
                | true => exact absurd h hd
              simp only [decimalOk, hsplit, this, Bool.and_false, Bool.false_and]
            rw [if_neg hd, hok]
            rfl
      · have hsplit : splitSign (b :: t) = (false, b :: t) := by
          rw [splitSign, if_neg h45, if_neg h43]
        have hval : decimalVal (b :: t) = ((decVal 0 (b :: t) : Nat) : Int) := by
          simp only [decimalVal, hsplit, Bool.false_eq_true, if_false]
        have hhead : ¬ ((b :: t).head? = some 45) := by
          simp only [List.head?_cons, Option.some.injEq]
          exact h45
        have hsign : ¬ (b = 45 ∨ b = 43) := fun h => h.elim h45 h43
        rw [atoiFast, if_neg hsign, atoiFastBody_eq, if_neg hhead]
        by_cases hd : (b :: t).all isDigit = true
        · have hb := decVal_lt_of_short (b :: t) hd (by rw [List.length_cons]; omega)
          have hok : decimalOk (b :: t) = true := by
            simp only [decimalOk, hsplit, hd, hval, List.isEmpty_cons, Bool.not_false,
              Bool.true_and, Bool.and_eq_true, decide_eq_true_eq, hmi, hmn]
            constructor <;> omega
          rw [if_pos hd, hok, hval]
          simp
        · have hok : decimalOk (b :: t) = false := by
            have : (b :: t).all isDigit = false := by
              cases h : (b :: t).all isDigit with
              | false => rfl
              | true => exact absurd h hd
            simp only [decimalOk, hsplit, this, Bool.and_false, Bool.false_and]
          rw [if_neg hd, hok]
          rfl

theorem parseUintLoop_not_digit (c : Byte) (rest : List Byte) (n : Nat) (h : ¬ IsDigit c) :
    parseUintLoop (c :: rest) n = (0, some NumError.ErrSyntax) := by
  have h' : ¬ (48 ≤ c.val ∧ c.val ≤ 57) := h
  rw [parseUintLoop]
  simp only [h', if_false]
  by_cases hl : 97 ≤ lower c ∧ lower c ≤ 122
  · simp only [hl, and_self, if_true]
    rw [if_pos (by omega)]
  · simp only [hl, if_false]

theorem parseUintLoop_digit (c : Byte) (rest : List Byte) (n : Nat) (h : IsDigit c) :
    parseUintLoop (c :: rest) n =
      if n ≥ maxUint64 / 10 + 1 then (maxUint64, some NumError.ErrRange)
      else if (n * 10 % 2 ^ 64 + (c.val - 48)) % 2 ^ 64 < n * 10 % 2 ^ 64 ∨
          (n * 10 % 2 ^ 64 + (c.val - 48)) % 2 ^ 64 > maxUint64 then
        (maxUint64, some NumError.ErrRange)
      else parseUintLoop rest ((n * 10 % 2 ^ 64 + (c.val - 48)) % 2 ^ 64) := by
  obtain ⟨h1, h2⟩ := h
  have hd : ¬ (c.val - 48 ≥ 10) := by omega
  rw [parseUintLoop]
  simp only [h1, h2, and_self, if_true]
  rw [if_neg hd]

/-- The digit loop of `ParseUint` ends in a syntax error with value 0, in a range error
with the largest `uint64`, or, on a string of digits whose value fits a `uint64`, in
that value. -/
theorem parseUintLoop_cases : ∀ (ds : List Byte) (n : Nat), n ≤ maxUint64 →
    parseUintLoop ds n = (0, some NumError.ErrSyntax) ∨
    parseUintLoop ds n = (maxUint64, some NumError.ErrRange) ∨
    (ds.all isDigit = true ∧ decVal n ds ≤ maxUint64 ∧
      parseUintLoop ds n = (decVal n ds, none)) := by
  intro ds
  induction ds with
  | nil =>
    intro n hn
    exact Or.inr (Or.inr ⟨rfl, hn, rfl⟩)
  | cons c rest ih =>
    intro n hn
    have hmu : maxUint64 = 18446744073709551615 := rfl
    by_cases hc : IsDigit c
    · obtain ⟨h1, h2⟩ := hc
      rw [parseUintLoop_digit c rest n ⟨h1, h2⟩]
      by_cases hcut : n ≥ maxUint64 / 10 + 1
      · rw [if_pos hcut]
        exact Or.inr (Or.inl rfl)
      · rw [if_neg hcut]
        have e1 : n * 10 % 2 ^ 64 = n * 10 := Nat.mod_eq_of_lt (by
          rw [hmu] at hcut; norm_num; omega)
        rw [e1]
        by_cases hov : (n * 10 + (c.val - 48)) % 2 ^ 64 < n * 10 ∨
            (n * 10 + (c.val - 48)) % 2 ^ 64 > maxUint64
        · rw [if_pos hov]
          exact Or.inr (Or.inl rfl)
        · rw [if_neg hov]
          have hlt : n * 10 + (c.val - 48) < 2 ^ 64 := by
            by_contra hge
            apply hov
            left
            rw [hmu] at hcut
            norm_num at hge ⊢
            omega
          have e2 : (n * 10 + (c.val - 48)) % 2 ^ 64 = n * 10 + (c.val - 48) :=
            Nat.mod_eq_of_lt hlt
          rw [e2]
          have hn1 : n * 10 + (c.val - 48) ≤ maxUint64 := by
            rw [hmu]; norm_num at hlt; omega
          have hd : isDigit c = true := (isDigit_iff c).2 ⟨h1, h2⟩
          have e : decVal n (c :: rest) = decVal (n * 10 + (c.val - 48)) rest := rfl
          rcases ih (n * 10 + (c.val - 48)) hn1 with h | h | ⟨ha, hb, hc'⟩
          · exact Or.inl h
          · exact Or.inr (Or.inl h)
          · refine Or.inr (Or.inr ⟨?_, ?_, ?_⟩)
            · simp only [List.all_cons, hd, ha, Bool.and_self]
            · rw [e]; exact hb
            · rw [e]; exact hc'
    · rw [parseUintLoop_not_digit c rest n hc]
      exact Or.inl rfl

theorem all_isDigit_forall (ds : List Byte) (h : ds.all isDigit = true) :
    ∀ b ∈ ds, IsDigit b := by
  intro b hb
  rw [List.all_eq_true] at h
  exact (isDigit_iff b).1 (h b hb)

/-- What `parseIntBody` returns, by the sign and the digits. -/
theorem parseIntBody_eq (neg : Bool) (ds : List Byte) :
    (ds ≠ [] ∧ ds.all isDigit = true ∧
        (if neg = true then decVal 0 ds ≤ 9223372036854775808
         else decVal 0 ds ≤ 9223372036854775807) ∧
      parseIntBody neg ds =
        (if neg = true then -((decVal 0 ds : Nat) : Int) else ((decVal 0 ds : Nat) : Int), none)) ∨
    (¬ (ds ≠ [] ∧ ds.all isDigit = true ∧
        (if neg = true then decVal 0 ds ≤ 9223372036854775808
         else decVal 0 ds ≤ 9223372036854775807)) ∧
      (parseIntBody neg ds).2 ≠ none) := by
  have hmu : maxUint64 = 18446744073709551615 := rfl
  by_cases hne : ds = []
  · right
    refine ⟨fun h => h.1 hne, ?_⟩
    rw [hne]
    cases neg <;> decide
  · have hpu : parseUint ds = parseUintLoop ds 0 := by
      rw [parseUint, if_neg hne]
    have hbad : ∀ r : Nat × Option NumError, r.2 ≠ none → parseUintLoop ds 0 = r →
        ¬ (ds ≠ [] ∧ ds.all isDigit = true ∧
          (if neg = true then decVal 0 ds ≤ 9223372036854775808
           else decVal 0 ds ≤ 9223372036854775807)) := by
      intro r hr heq ⟨_, hd, hrange⟩
      have hle : decVal 0 ds ≤ maxUint64 := by
        rw [hmu]
        cases neg
        · simp only [Bool.false_eq_true, if_false] at hrange; omega
        · simp only [if_true] at hrange; omega
      have := parseUintLoop_digits ds 0 (all_isDigit_forall ds hd) hle
      rw [heq] at this
      rw [this] at hr
      exact hr rfl
    rcases parseUintLoop_cases ds 0 (by rw [hmu]; omega) with h | h | ⟨hd, hle, h⟩
    · right
      refine ⟨hbad _ (by simp) h, ?_⟩
      unfold parseIntBody
      rw [hpu, h]
      simp
    · right
      refine ⟨hbad _ (by simp) h, ?_⟩
      unfold parseIntBody
      rw [hpu, h, hmu]
      cases neg <;> simp
    · unfold parseIntBody
      rw [hpu, h]
      cases neg with
      | false =>
        by_cases hr : decVal 0 ds ≤ 9223372036854775807
        · left
          refine ⟨hne, hd, by simpa using hr, ?_⟩
          have : decVal 0 ds < 9223372036854775808 := by omega
          simp [this]
        · right
          refine ⟨fun hh => hr (by simpa using hh.2.2), ?_⟩
          have : 9223372036854775808 ≤ decVal 0 ds := by omega
          simp [this]
      | true =>
        by_cases hr : decVal 0 ds ≤ 9223372036854775808
        · left
          refine ⟨hne, hd, by simpa using hr, ?_⟩
          simp [hr]
        · right
          refine ⟨fun hh => hr (by simpa using hh.2.2), ?_⟩
          have : 9223372036854775808 < decVal 0 ds := by omega
          simp [this]

theorem decimalOk_iff (s : GoString) (neg : Bool) (ds : List Byte)
    (hsplit : splitSign s = (neg, ds)) :
    (decimalOk s = true ↔ (ds ≠ [] ∧ ds.all isDigit = true ∧
      (if neg = true then decVal 0 ds ≤ 9223372036854775808
       else decVal 0 ds ≤ 9223372036854775807))) ∧
    decimalVal s =
      (if neg = true then -((decVal 0 ds : Nat) : Int) else ((decVal 0 ds : Nat) : Int)) := by
  have hmi : maxInt = 9223372036854775807 := rfl
  have hmn : minInt = -9223372036854775808 := rfl
  have hval : decimalVal s =
      (if neg = true then -((decVal 0 ds : Nat) : Int) else ((decVal 0 ds : Nat) : Int)) := by
    unfold decimalVal
    rw [hsplit]
  refine ⟨?_, hval⟩
  unfold decimalOk
  rw [hval, hsplit, hmi, hmn]
  have hemp : (!ds.isEmpty) = true ↔ ds ≠ [] := by
    cases ds with
    | nil => simp
    | cons b t => simp
  cases neg with
  | false =>
    simp only [Bool.and_eq_true, hemp, decide_eq_true_eq, Bool.false_eq_true, if_false]
    constructor
    · rintro ⟨⟨⟨h1, h2⟩, -⟩, h4⟩
      exact ⟨h1, h2, by omega⟩
    · rintro ⟨h1, h2, h3⟩
      exact ⟨⟨⟨h1, h2⟩, by omega⟩, by omega⟩
  | true =>
    simp only [Bool.and_eq_true, hemp, decide_eq_true_eq, if_true]
    constructor
    · rintro ⟨⟨⟨h1, h2⟩, h3⟩, -⟩
      exact ⟨h1, h2, by omega⟩
    · rintro ⟨h1, h2, h3⟩
      exact ⟨⟨⟨h1, h2⟩, by omega⟩, by omega⟩

theorem parseIntBody_decimal (s : GoString) (neg : Bool) (ds : List Byte)
    (hsplit : splitSign s = (neg, ds)) :
    (decimalOk s = true → parseIntBody neg ds = (decimalVal s, none)) ∧
    (decimalOk s = false → (parseIntBody neg ds).2 ≠ none) := by
  obtain ⟨hiff, hval⟩ := decimalOk_iff s neg ds hsplit
  rcases parseIntBody_eq neg ds with ⟨h1, h2, h3, h4⟩ | ⟨h1, h2⟩
  · refine ⟨fun _ => by rw [h4, hval], fun hf => ?_⟩
    rw [hiff.2 ⟨h1, h2, h3⟩] at hf
    exact Bool.noConfusion hf
  · refine ⟨fun ht => absurd (hiff.1 ht) h1, fun _ => h2⟩

/-- The function `ParseInt(s, 10, 0)` agrees with the meaning of a decimal literal. -/
theorem parseInt_decimal (s : GoString) :
    (decimalOk s = true → parseInt s = (decimalVal s, none)) ∧
    (decimalOk s = false → (parseInt s).2 ≠ none) := by
  cases s with
  | nil =>
    refine ⟨fun h => ?_, fun _ => ?_⟩
    · exact absurd h (by decide)
    · decide
  | cons b t =>
    by_cases h43 : b = 43
    · have h45 : ¬ b = 45 := by rw [h43]; decide
      have hsplit : splitSign (b :: t) = (false, t) := by
        rw [splitSign, if_neg h45, if_pos h43]
      have hp : parseInt (b :: t) = parseIntBody false t := by
        rw [parseInt, if_pos h43]
      rw [hp]
      exact parseIntBody_decimal (b :: t) false t hsplit
    · by_cases h45 : b = 45
      · have hsplit : splitSign (b :: t) = (true, t) := by
          rw [splitSign, if_pos h45]
        have hp : parseInt (b :: t) = parseIntBody true t := by
          rw [parseInt, if_neg h43, if_pos h45]
        rw [hp]
        exact parseIntBody_decimal (b :: t) true t hsplit
      · have hsplit : splitSign (b :: t) = (false, b :: t) := by
          rw [splitSign, if_neg h45, if_neg h43]
        have hp : parseInt (b :: t) = parseIntBody false (b :: t) := by
          rw [parseInt, if_neg h43, if_neg h45]
        rw [hp]
        exact parseIntBody_decimal (b :: t) false (b :: t) hsplit

/-- The function `strconv.Atoi` agrees with the meaning of a decimal literal: it returns a
nil error exactly on an optional sign followed by one or more decimal digits that
denote an integer in the range of `int`, and then it returns that integer. -/
theorem atoi_decimal (s : GoString) :
    (decimalOk s = true → atoi s = (decimalVal s, none)) ∧
    (decimalOk s = false → (atoi s).2 ≠ none) := by
  unfold atoi
  split
  · rename_i hlen
    rw [atoiFast_eq s hlen.2]
    refine ⟨fun h => by rw [if_pos h], fun h => ?_⟩
    rw [h]
    simp
  · exact parseInt_decimal s

/-- A key parses, in the sense of `Atoi`, exactly when it is a decimal literal in the
range of `int`; the integer it parses to is the one the literal denotes. -/
theorem keyParses_eq_decimalOk (h : Hit) :
    keyParses h = decimalOk h.ID ∧ (keyParses h = true → parsedId h = decimalVal h.ID) := by
  obtain ⟨h1, h2⟩ := atoi_decimal h.ID
  cases hok : decimalOk h.ID with
  | true =>
    have := h1 hok
    refine ⟨?_, fun _ => ?_⟩
    · simp only [keyParses, this, decide_True]
    · simp only [parsedId, this]
  | false =>
    have := h2 hok
    have hk : keyParses h = false := by
      simp only [keyParses, this, decide_False]
    exact ⟨hk, fun ht => by rw [hk] at ht; exact Bool.noConfusion ht⟩

/-! ## Lemmas on the catalog and on hydration -/

theorem generateLoop_eq (rnd : Nat → Nat) (limit : Nat) :
    ∀ fuel i out, limit + 1 - i ≤ fuel →
      generateLoop rnd limit fuel i out =
        out ++ (List.range' i (limit + 1 - i)).map (makeProduct rnd) := by
  intro fuel
  induction fuel with
  | zero =>
    intro i out h
    have h0 : limit + 1 - i = 0 := by omega
    simp [generateLoop, h0]
  | succ fuel ih =>
    intro i out h
    by_cases hi : i ≤ limit
    · rw [generateLoop, if_pos hi, ih (i + 1) _ (by omega)]
      have e : limit + 1 - i = (limit + 1 - (i + 1)) + 1 := by omega
      rw [e, List.range'_succ, List.map_cons]
      simp
    · have h0 : limit + 1 - i = 0 := by omega
      rw [generateLoop, if_neg hi, h0]
      simp

theorem generateProducts_eq (rnd : Nat → Nat) :
    generateProducts rnd = (List.range' 1 1000000).map (makeProduct rnd) := by
  have h := generateLoop_eq rnd 1000000 1000000 1 [] (by omega)
  rw [List.nil_append] at h
  exact h

theorem guardHolds_iff (n : Nat) (h : Hit) :
    guardHolds n h = true ↔ (atoi h.ID).1 > 0 ∧ (atoi h.ID).1 ≤ (n : Int) := by
  simp [guardHolds]

theorem storeAt_of_guard (products : List Product) (h : Hit)
    (hg : guardHolds products.length h = true) :
    ∃ p, storeAt products ((atoi h.ID).1 - 1) = some p ∧
      products[((atoi h.ID).1 - 1).toNat]? = some p := by
  obtain ⟨h1, h2⟩ := (guardHolds_iff _ _).1 hg
  have hlt : ((atoi h.ID).1 - 1).toNat < products.length := by omega
  refine ⟨products[((atoi h.ID).1 - 1).toNat], ?_, List.getElem?_eq_getElem hlt⟩
  rw [storeAt, if_pos (by omega), List.getElem?_eq_getElem hlt]

theorem hydrate_cons (products : List Product) (hit : Hit) (rest : List Hit)
    (results : List Product) (tr : List Effect) :
    hydrate products (hit :: rest) results tr =
      if (atoi hit.ID).1 > 0 ∧ (atoi hit.ID).1 ≤ (products.length : Int) then
        match storeAt products ((atoi hit.ID).1 - 1) with
        | some p =>
          hydrate products rest (results ++ [p])
            (tr ++ [Effect.storeRead ((atoi hit.ID).1 - 1)])
        | none => none
      else hydrate products rest results tr := rfl

/-- The hydration loop never panics; it appends the records of the hits that pass the
guard, in order, and reads the store once for each of them. -/
theorem hydrate_eq (products : List Product) :
    ∀ (hits : List Hit) (results : List Product) (tr : List Effect),
      hydrate products hits results tr =
        some (results ++ hits.filterMap (pick products),
          tr ++ hits.filterMap (pickRead products)) := by
  intro hits
  induction hits with
  | nil => intro results tr; simp [hydrate]
  | cons hit rest ih =>
    intro results tr
    rw [hydrate_cons]
    by_cases hg : guardHolds products.length hit = true
    · obtain ⟨p, hp, -⟩ := storeAt_of_guard products hit hg
      have hpick : pick products hit = some p := by rw [pick, if_pos hg, hp]
      have hread : pickRead products hit = some (Effect.storeRead ((atoi hit.ID).1 - 1)) := by
        rw [pickRead, if_pos hg]
      rw [if_pos ((guardHolds_iff _ _).1 hg), hp]
      simp only [ih, List.filterMap_cons, hpick, hread, List.append_assoc,
        List.singleton_append]
    · have hg' : ¬ ((atoi hit.ID).1 > 0 ∧ (atoi hit.ID).1 ≤ (products.length : Int)) :=
        fun h => hg ((guardHolds_iff _ _).2 h)
      have hpick : pick products hit = none := by rw [pick, if_neg hg]
      have hread : pickRead products hit = none := by rw [pickRead, if_neg hg]
      rw [if_neg hg', ih, List.filterMap_cons, hpick, List.filterMap_cons, hread]

/-- On a store shorter than the largest `int` the guard of line 174 holds exactly for
the valid hits: a key that does not parse reads as 0 or as an extreme `int`. -/
theorem guardHolds_eq_validHit (n : Nat) (hn : (n : Int) < maxInt) (h : Hit) :
    guardHolds n h = validHit n h := by
  have hmi : maxInt = 9223372036854775807 := rfl
  have hmn : minInt = -9223372036854775808 := rfl
  rw [hmi] at hn
  by_cases hp : (atoi h.ID).2 = none
  · rw [Bool.eq_iff_iff]
    simp only [guardHolds, validHit, keyParses, parsedId, hp, decide_True, Bool.true_and,
      Bool.and_eq_true, decide_eq_true_eq]
    constructor <;> intro hh <;> omega
  · have hv : validHit n h = false := by
      simp [validHit, keyParses, hp]
    rw [hv]
    rcases atoi_err_value h.ID hp with h0 | h0 | h0
    · simp [guardHolds, h0]
    · simp only [guardHolds, h0, hmi, Bool.and_eq_false_imp, decide_eq_true_eq,
        decide_eq_false_iff_not]
      intro _; omega
    · simp [guardHolds, h0, hmn]

theorem filter_guard_eq_valid (n : Nat) (hn : (n : Int) < maxInt) (hits : List Hit) :
    hits.filter (guardHolds n) = hits.filter (validHit n) := by
  congr 1
  funext h
  exact guardHolds_eq_validHit n hn h

theorem filterMap_pick_ids (store : List Product) (hinv : StoreInvariant store) :
    ∀ hits : List Hit, (hits.filterMap (pick store)).map Product.ID =
      (hits.filter (guardHolds store.length)).map parsedId := by
  intro hits
  induction hits with
  | nil => rfl
  | cons hit rest ih =>
    by_cases hg : guardHolds store.length hit = true
    · obtain ⟨p, hp, hget⟩ := storeAt_of_guard store hit hg
      obtain ⟨h1, h2⟩ := (guardHolds_iff _ _).1 hg
      have hid := hinv _ p hget
      have hpick : pick store hit = some p := by rw [pick, if_pos hg, hp]
      rw [List.filterMap_cons, hpick, List.filter_cons, if_pos hg, List.map_cons, List.map_cons,
        ih, hid]
      congr 1
      simp only [parsedId]
      omega
    · have hpick : pick store hit = none := by rw [pick, if_neg hg]
      rw [List.filterMap_cons, hpick, List.filter_cons, if_neg hg]
      exact ih

theorem filterMap_pick_length (store : List Product) :
    ∀ hits : List Hit, (hits.filterMap (pick store)).length =
      (hits.filter (guardHolds store.length)).length := by
  intro hits
  induction hits with
  | nil => rfl
  | cons hit rest ih =>
    by_cases hg : guardHolds store.length hit = true
    · obtain ⟨p, hp, -⟩ := storeAt_of_guard store hit hg
      have hpick : pick store hit = some p := by rw [pick, if_pos hg, hp]
      rw [List.filterMap_cons, hpick, List.filter_cons, if_pos hg, List.length_cons,
        List.length_cons, ih]
    · have hpick : pick store hit = none := by rw [pick, if_neg hg]
      rw [List.filterMap_cons, hpick, List.filter_cons, if_neg hg]
      exact ih

theorem pickRead_in_range (products : List Product) (hits : List Hit) (pos : Int)
    (h : Effect.storeRead pos ∈ hits.filterMap (pickRead products)) :
    0 ≤ pos ∧ pos < (products.length : Int) := by
  obtain ⟨hit, -, hr⟩ := List.mem_filterMap.1 h
  by_cases hg : guardHolds products.length hit = true
  · rw [pickRead, if_pos hg] at hr
    obtain ⟨h1, h2⟩ := (guardHolds_iff _ _).1 hg
    have : (atoi hit.ID).1 - 1 = pos := by
      injection hr with hr
      injection hr
    omega
  · rw [pickRead, if_neg hg] at hr
    exact Option.noConfusion hr

/-- What `searchProducts` returns when the engine answers with a result. -/
theorem searchProducts_ok (index : Engine) (products : List Product) (q : String)
    (res : SearchResult) (hres : index.Search (mkRequest q) = Except.ok res) :
    searchProducts index products q =
      some { results := res.Hits.filterMap (pick products), err := none,
             trace := Effect.searchCall (mkRequest q) :: res.Hits.filterMap (pickRead products) } := by
  rw [searchProducts, hres]
  simp only [hydrate_eq, List.nil_append, List.singleton_append]

/-- What `searchProducts` returns when the engine answers with an error. -/
theorem searchProducts_error (index : Engine) (products : List Product) (q : String)
    (e : GoError) (hres : index.Search (mkRequest q) = Except.error e) :
    searchProducts index products q =
      some { results := [], err := some e, trace := [Effect.searchCall (mkRequest q)] } := by
  rw [searchProducts, hres]

/-- A valid hit, stated without `strconv`: the key is a decimal literal in the range of
`int` that denotes an integer in `1..n`. -/
theorem validHit_eq_decimal (n : Nat) (h : Hit) :
    validHit n h =
      (decimalOk h.ID && decide (1 ≤ decimalVal h.ID) && decide (decimalVal h.ID ≤ (n : Int))) ∧
    (validHit n h = true → parsedId h = decimalVal h.ID) := by
  obtain ⟨hk, hv⟩ := keyParses_eq_decimalOk h
  cases hp : keyParses h with
  | false =>
    rw [hp] at hk
    refine ⟨?_, fun ht => ?_⟩
    · simp only [validHit, hp, ← hk, Bool.false_and]
    · simp only [validHit, hp, Bool.false_and] at ht
      exact Bool.noConfusion ht
  | true =>
    rw [hp] at hk
    have hid := hv hp
    refine ⟨?_, fun _ => hid⟩
    rw [Bool.eq_iff_iff]
    simp only [validHit, hp, ← hk, hid, Bool.true_and, Bool.and_eq_true, decide_eq_true_eq]
    constructor <;> intro hh <;> omega

/-! ## Lemmas on the load -/

theorem stepFeedSend_some (n : Nat) (s s' : LoadState) (h : stepFeedSend n s = some s') :
    ∃ start, s.coord = Coord.feeding start ∧ start < n ∧ s.batches.length < queueBuffer ∧
      s.closed = false ∧
      s' = { s with
          coord := Coord.feeding (start + chunk)
          batches := s.batches ++ [{ start := start, stop := chunkEnd chunk n start }]
          fed := s.fed ++ [{ start := start, stop := chunkEnd chunk n start }] } := by
  unfold stepFeedSend at h
  split at h
  · rename_i start hc
    split at h
    · rename_i hg
      exact ⟨start, hc, hg.1, hg.2.1, hg.2.2, (Option.some.inj h).symm⟩
    · exact Option.noConfusion h
  · exact Option.noConfusion h

theorem stepFeedRecvErr_some (n : Nat) (s s' : LoadState) (h : stepFeedRecvErr n s = some s') :
    ∃ start e, s.coord = Coord.feeding start ∧ s.errChan = some e ∧ start < n ∧
      s' = { s with coord := Coord.returned (some e), errChan := none, closed := true } := by
  unfold stepFeedRecvErr at h
  split at h
  · rename_i start e hc he
    split at h
    · rename_i hg
      exact ⟨start, e, hc, he, hg, (Option.some.inj h).symm⟩
    · exact Option.noConfusion h
  · exact Option.noConfusion h

theorem stepFeedExit_some (n : Nat) (s s' : LoadState) (h : stepFeedExit n s = some s') :
    ∃ start, s.coord = Coord.feeding start ∧ ¬ start < n ∧
      s' = { s with coord := Coord.waiting, closed := true } := by
  unfold stepFeedExit at h
  split at h
  · rename_i start hc
    split at h
    · exact Option.noConfusion h
    · rename_i hg
      exact ⟨start, hc, hg, (Option.some.inj h).symm⟩
  · exact Option.noConfusion h

theorem stepWaitDone_some (s s' : LoadState) (h : stepWaitDone s = some s') :
    s.coord = Coord.waiting ∧ allDone s.workers = true ∧
      s' = { s with coord := Coord.finalSelect } := by
  unfold stepWaitDone at h
  split at h
  · rename_i hc
    split at h
    · rename_i hg
      exact ⟨hc, hg, (Option.some.inj h).symm⟩
    · exact Option.noConfusion h
  · exact Option.noConfusion h

theorem stepFinalSelect_some (s s' : LoadState) (h : stepFinalSelect s = some s') :
    s.coord = Coord.finalSelect ∧
      s' = { s with coord := Coord.returned s.errChan, errChan := none } := by
  unfold stepFinalSelect at h
  split at h
  · rename_i hc
    exact ⟨hc, (Option.some.inj h).symm⟩
  · exact Option.noConfusion h

theorem stepWorkerRecv_some (s s' : LoadState) (w : Nat) (h : stepWorkerRecv s w = some s') :
    ∃ c rest, s.workers[w]? = some Worker.waiting ∧ s.batches = c :: rest ∧
      s' = { s with workers := s.workers.set w (Worker.holding c), batches := rest } := by
  unfold stepWorkerRecv at h
  split at h
  · rename_i c rest hw hb
    exact ⟨c, rest, hw, hb, (Option.some.inj h).symm⟩
  · exact Option.noConfusion h

theorem stepWorkerExit_some (s s' : LoadState) (w : Nat) (h : stepWorkerExit s w = some s') :
    s.workers[w]? = some Worker.waiting ∧ s.batches = [] ∧ s.closed = true ∧
      s' = { s with workers := s.workers.set w Worker.done } := by
  unfold stepWorkerExit at h
  split at h
  · rename_i hw hb
    split at h
    · rename_i hg
      exact ⟨hw, hb, hg, (Option.some.inj h).symm⟩
    · exact Option.noConfusion h
  · exact Option.noConfusion h

theorem stepBatchOk_some (s s' : LoadState) (w : Nat) (h : stepBatchOk s w = some s') :
    ∃ c, s.workers[w]? = some (Worker.holding c) ∧
      s' = { s with workers := s.workers.set w Worker.waiting } := by
  unfold stepBatchOk at h
  split at h
  · rename_i c hw
    exact ⟨c, hw, (Option.some.inj h).symm⟩
  · exact Option.noConfusion h

theorem stepBatchFail_some (s s' : LoadState) (w : Nat) (e : GoError)
    (h : stepBatchFail s w e = some s') :
    ∃ c, s.workers[w]? = some (Worker.holding c) ∧
      s' = { s with workers := s.workers.set w (Worker.failed e),
                    failures := s.failures ++ [e] } := by
  unfold stepBatchFail at h
  split at h
  · rename_i c hw
    exact ⟨c, hw, (Option.some.inj h).symm⟩
  · exact Option.noConfusion h

theorem stepWorkerReport_some (s s' : LoadState) (w : Nat)
    (h : stepWorkerReport s w = some s') :
    ∃ e, s.workers[w]? = some (Worker.failed e) ∧
      s' = { s with workers := s.workers.set w Worker.done, errChan := offer s.errChan e } := by
  unfold stepWorkerReport at h
  split at h
  · rename_i e hw
    exact ⟨e, hw, (Option.some.inj h).symm⟩
  · exact Option.noConfusion h

theorem set_getElem?_cases (l : List Worker) (w v : Nat) (x y : Worker)
    (h : (l.set w x)[v]? = some y) : (v = w ∧ y = x) ∨ (v ≠ w ∧ l[v]? = some y) := by
  rw [List.getElem?_set] at h
  by_cases hwv : w = v
  · rw [if_pos hwv] at h
    split at h
    · exact Or.inl ⟨hwv.symm, (Option.some.inj h).symm⟩
    · exact Option.noConfusion h
  · rw [if_neg hwv] at h
    exact Or.inr ⟨fun e => hwv e.symm, h⟩

theorem set_getElem?_self (l : List Worker) (w : Nat) (x y : Worker) (h : l[w]? = some y) :
    (l.set w x)[w]? = some x := by
  have hlt : w < l.length := by
    by_contra hc
    rw [List.getElem?_eq_none (Nat.le_of_not_lt hc)] at h
    exact Option.noConfusion h
  rw [List.getElem?_set, if_pos rfl, if_pos hlt]

theorem set_getElem?_other (l : List Worker) (w v : Nat) (x : Worker) (h : v ≠ w) :
    (l.set w x)[v]? = l[v]? :=
  List.getElem?_set_ne (fun e => h e.symm)

theorem allDone_getElem? (ws : List Worker) (h : allDone ws = true) (w : Nat) (x : Worker)
    (hx : ws[w]? = some x) : x = Worker.done := by
  unfold allDone at h
  rw [List.all_eq_true] at h
  have hmem : x ∈ ws := List.mem_iff_getElem?.2 ⟨w, hx⟩
  simpa using h x hmem

theorem inv_init : Inv initState where
  errChan_mem := fun e h => Option.noConfusion h
  returned_mem := fun e h => Coord.noConfusion h
  failed_mem := by
    intro w e h
    have h' : (List.replicate numWorkers Worker.waiting)[w]? = some (Worker.failed e) := h
    rw [List.getElem?_replicate] at h'
    split at h'
    · exact Worker.noConfusion (Option.some.inj h')
    · exact Option.noConfusion h'
  latched := fun h => absurd rfl h
  past_wait := by
    intro h
    rcases h with h | h <;> exact Coord.noConfusion h
  closed_iff := ⟨fun _ => ⟨0, rfl⟩, fun _ => rfl⟩
  done_failed := by
    intro _ w h
    have h' : (List.replicate numWorkers Worker.waiting)[w]? = some Worker.done := h
    rw [List.getElem?_replicate] at h'
    split at h'
    · exact Worker.noConfusion (Option.some.inj h')
    · exact Option.noConfusion h'
  workers_length := List.length_replicate _ _
  returned_none := fun h => Coord.noConfusion h

theorem inv_feedSend (n : Nat) (s s' : LoadState) (inv : Inv s)
    (h : stepFeedSend n s = some s') : Inv s' := by
  obtain ⟨start, hc, -, -, hcl, rfl⟩ := stepFeedSend_some n s s' h
  refine ⟨inv.errChan_mem, fun e he => Coord.noConfusion he, inv.failed_mem, ?_, ?_, ?_,
    inv.done_failed, inv.workers_length, fun hh => Coord.noConfusion hh⟩
  · intro hf
    rcases inv.latched hf with h1 | ⟨e, h2⟩ | h3
    · exact Or.inl h1
    · rw [hc] at h2; exact Coord.noConfusion h2
    · exact Or.inr (Or.inr h3)
  · intro hh
    rcases hh with hh | hh <;> exact Coord.noConfusion hh
  · exact ⟨fun _ => ⟨_, rfl⟩, fun _ => hcl⟩

theorem inv_feedRecvErr (n : Nat) (s s' : LoadState) (inv : Inv s)
    (h : stepFeedRecvErr n s = some s') : Inv s' := by
  obtain ⟨start, e, hc, he, -, rfl⟩ := stepFeedRecvErr_some n s s' h
  refine ⟨fun e' he' => Option.noConfusion he', ?_, inv.failed_mem, ?_, ?_, ?_, ?_,
    inv.workers_length, fun _ => rfl⟩
  · intro e' he'
    have : e' = e := by
      injection he' with h1
      injection h1 with h2
      exact h2.symm
    rw [this]
    exact inv.errChan_mem e he
  · intro _
    exact Or.inr (Or.inl ⟨e, rfl⟩)
  · intro hh
    rcases hh with hh | hh
    · exact Coord.noConfusion hh
    · injection hh with h1
      exact Option.noConfusion h1
  · exact ⟨fun hh => Bool.noConfusion hh, fun ⟨_, hh⟩ => Coord.noConfusion hh⟩
  · intro hh
    exact Bool.noConfusion hh

theorem inv_feedExit (n : Nat) (s s' : LoadState) (inv : Inv s)
    (h : stepFeedExit n s = some s') : Inv s' := by
  obtain ⟨start, hc, -, rfl⟩ := stepFeedExit_some n s s' h
  refine ⟨inv.errChan_mem, fun e he => Coord.noConfusion he, inv.failed_mem, ?_, ?_, ?_, ?_,
    inv.workers_length, fun hh => Coord.noConfusion hh⟩
  · intro hf
    rcases inv.latched hf with h1 | ⟨e, h2⟩ | h3
    · exact Or.inl h1
    · rw [hc] at h2; exact Coord.noConfusion h2
    · exact Or.inr (Or.inr h3)
  · intro hh
    rcases hh with hh | hh <;> exact Coord.noConfusion hh
  · exact ⟨fun hh => Bool.noConfusion hh, fun ⟨_, hh⟩ => Coord.noConfusion hh⟩
  · intro hh
    exact Bool.noConfusion hh

theorem inv_waitDone (s s' : LoadState) (inv : Inv s)
    (h : stepWaitDone s = some s') : Inv s' := by
  obtain ⟨hc, hall, rfl⟩ := stepWaitDone_some s s' h
  have hclosed : s.closed ≠ false := by
    intro hcl
    obtain ⟨start, hs⟩ := inv.closed_iff.1 hcl
    rw [hc] at hs
    exact Coord.noConfusion hs
  refine ⟨inv.errChan_mem, fun e he => Coord.noConfusion he, inv.failed_mem, ?_, ?_, ?_,
    inv.done_failed, inv.workers_length, fun hh => Coord.noConfusion hh⟩
  · intro hf
    rcases inv.latched hf with h1 | ⟨e, h2⟩ | h3
    · exact Or.inl h1
    · rw [hc] at h2; exact Coord.noConfusion h2
    · exact Or.inr (Or.inr h3)
  · intro _ w x hx
    exact allDone_getElem? s.workers hall w x hx
  · exact ⟨fun hh => absurd hh hclosed, fun ⟨_, hh⟩ => Coord.noConfusion hh⟩

theorem inv_finalSelect (s s' : LoadState) (inv : Inv s)
    (h : stepFinalSelect s = some s') : Inv s' := by
  obtain ⟨hc, rfl⟩ := stepFinalSelect_some s s' h
  have hdone := inv.past_wait (Or.inl hc)
  have hclosed : s.closed ≠ false := by
    intro hcl
    obtain ⟨start, hs⟩ := inv.closed_iff.1 hcl
    rw [hc] at hs
    exact Coord.noConfusion hs
  refine ⟨fun e' he' => Option.noConfusion he', ?_, inv.failed_mem, ?_, ?_, ?_,
    inv.done_failed, inv.workers_length, fun _ => rfl⟩
  · intro e he
    have he' : s.errChan = some e := by
      injection he
    exact inv.errChan_mem e he'
  · intro hf
    rcases inv.latched hf with h1 | ⟨e, h2⟩ | ⟨w, e, h3⟩
    · right; left
      cases hec : s.errChan with
      | none => rw [hec] at h1; exact Bool.noConfusion h1
      | some e => exact ⟨e, rfl⟩
    · rw [hc] at h2; exact Coord.noConfusion h2
    · exact Worker.noConfusion (hdone w _ h3)
  · intro _ w x hx
    exact hdone w x hx
  · exact ⟨fun hh => absurd hh hclosed, fun ⟨_, hh⟩ => Coord.noConfusion hh⟩

/-- A worker that is not done contradicts being past `wg.Wait()`. -/
theorem not_past_wait (s : LoadState) (inv : Inv s) (w : Nat) (x : Worker)
    (hw : s.workers[w]? = some x) (hx : x ≠ Worker.done) :
    ¬ (s.coord = Coord.finalSelect ∨ s.coord = Coord.returned none) :=
  fun hc => hx (inv.past_wait hc w x hw)

theorem latched_keep (s : LoadState) (w : Nat) (old x : Worker)
    (hw : s.workers[w]? = some old) (hold : ∀ e, old ≠ Worker.failed e)
    (h : ∃ (v : Nat) (e : GoError), s.workers[v]? = some (Worker.failed e)) :
    ∃ (v : Nat) (e : GoError), (s.workers.set w x)[v]? = some (Worker.failed e) := by
  obtain ⟨v, e, hv⟩ := h
  have hne : v ≠ w := by
    intro heq
    rw [heq, hw] at hv
    exact hold e (Option.some.inj hv)
  exact ⟨v, e, by rw [set_getElem?_other _ _ _ _ hne]; exact hv⟩

theorem inv_workerRecv (s s' : LoadState) (w : Nat) (inv : Inv s)
    (h : stepWorkerRecv s w = some s') : Inv s' := by
  obtain ⟨c, rest, hw, -, rfl⟩ := stepWorkerRecv_some s s' w h
  refine ⟨inv.errChan_mem, inv.returned_mem, ?_, ?_, ?_, inv.closed_iff, ?_, ?_, ?_⟩
  · intro v e hv
    rcases set_getElem?_cases _ _ _ _ _ hv with ⟨-, h2⟩ | ⟨-, h2⟩
    · exact Worker.noConfusion h2
    · exact inv.failed_mem v e h2
  · intro hf
    rcases inv.latched hf with h1 | h2 | h3
    · exact Or.inl h1
    · exact Or.inr (Or.inl h2)
    · exact Or.inr (Or.inr (latched_keep s w _ _ hw (fun e he => Worker.noConfusion he) h3))
  · intro hc
    exact absurd hc (not_past_wait s inv w _ hw (fun he => Worker.noConfusion he))
  · intro hcl v hv
    rcases set_getElem?_cases _ _ _ _ _ hv with ⟨-, h2⟩ | ⟨-, h2⟩
    · exact Worker.noConfusion h2
    · exact inv.done_failed hcl v h2
  · exact (List.length_set _ _ _).trans inv.workers_length
  · intro hc
    exact absurd (Or.inr hc) (not_past_wait s inv w _ hw (fun he => Worker.noConfusion he))

theorem inv_workerExit (s s' : LoadState) (w : Nat) (inv : Inv s)
    (h : stepWorkerExit s w = some s') : Inv s' := by
  obtain ⟨hw, -, hcl, rfl⟩ := stepWorkerExit_some s s' w h
  refine ⟨inv.errChan_mem, inv.returned_mem, ?_, ?_, ?_, inv.closed_iff, ?_, ?_, ?_⟩
  · intro v e hv
    rcases set_getElem?_cases _ _ _ _ _ hv with ⟨-, h2⟩ | ⟨-, h2⟩
    · exact Worker.noConfusion h2
    · exact inv.failed_mem v e h2
  · intro hf
    rcases inv.latched hf with h1 | h2 | h3
    · exact Or.inl h1
    · exact Or.inr (Or.inl h2)
    · exact Or.inr (Or.inr (latched_keep s w _ _ hw (fun e he => Worker.noConfusion he) h3))
  · intro hc
    exact absurd hc (not_past_wait s inv w _ hw (fun he => Worker.noConfusion he))
  · intro hcl'
    have hcl'' : s.closed = false := hcl'
    rw [hcl] at hcl''
    exact Bool.noConfusion hcl''
  · exact (List.length_set _ _ _).trans inv.workers_length
  · intro hc
    exact absurd (Or.inr hc) (not_past_wait s inv w _ hw (fun he => Worker.noConfusion he))

theorem inv_batchOk (s s' : LoadState) (w : Nat) (inv : Inv s)
    (h : stepBatchOk s w = some s') : Inv s' := by
  obtain ⟨c, hw, rfl⟩ := stepBatchOk_some s s' w h
  refine ⟨inv.errChan_mem, inv.returned_mem, ?_, ?_, ?_, inv.closed_iff, ?_, ?_, ?_⟩
  · intro v e hv
    rcases set_getElem?_cases _ _ _ _ _ hv with ⟨-, h2⟩ | ⟨-, h2⟩
    · exact Worker.noConfusion h2
    · exact inv.failed_mem v e h2
  · intro hf
    rcases inv.latched hf with h1 | h2 | h3
    · exact Or.inl h1
    · exact Or.inr (Or.inl h2)
    · exact Or.inr (Or.inr (latched_keep s w _ _ hw (fun e he => Worker.noConfusion he) h3))
  · intro hc
    exact absurd hc (not_past_wait s inv w _ hw (fun he => Worker.noConfusion he))
  · intro hcl v hv
    rcases set_getElem?_cases _ _ _ _ _ hv with ⟨-, h2⟩ | ⟨-, h2⟩
    · exact Worker.noConfusion h2
    · exact inv.done_failed hcl v h2
  · exact (List.length_set _ _ _).trans inv.workers_length
  · intro hc
    exact absurd (Or.inr hc) (not_past_wait s inv w _ hw (fun he => Worker.noConfusion he))

theorem inv_batchFail (s s' : LoadState) (w : Nat) (e : GoError) (inv : Inv s)
    (h : stepBatchFail s w e = some s') : Inv s' := by
  obtain ⟨c, hw, rfl⟩ := stepBatchFail_some s s' w e h
  refine ⟨?_, ?_, ?_, ?_, ?_, inv.closed_iff, ?_, ?_, ?_⟩
  · intro e' he'
    exact List.mem_append_left _ (inv.errChan_mem e' he')
  · intro e' he'
    exact List.mem_append_left _ (inv.returned_mem e' he')
  · intro v e' hv
    rcases set_getElem?_cases _ _ _ _ _ hv with ⟨-, h2⟩ | ⟨-, h2⟩
    · have : e' = e := by injection h2
      rw [this]
      exact List.mem_append_right _ (List.mem_singleton.2 rfl)
    · exact List.mem_append_left _ (inv.failed_mem v e' h2)
  · intro _
    exact Or.inr (Or.inr ⟨w, e, set_getElem?_self _ _ _ _ hw⟩)
  · intro hc
    exact absurd hc (not_past_wait s inv w _ hw (fun he => Worker.noConfusion he))
  · intro hcl v hv
    intro hnil
    exact absurd hnil (by simp)
  · exact (List.length_set _ _ _).trans inv.workers_length
  · intro hc
    exact absurd (Or.inr hc) (not_past_wait s inv w _ hw (fun he => Worker.noConfusion he))

theorem inv_workerReport (s s' : LoadState) (w : Nat) (inv : Inv s)
    (h : stepWorkerReport s w = some s') : Inv s' := by
  obtain ⟨e, hw, rfl⟩ := stepWorkerReport_some s s' w h
  have hmem : e ∈ s.failures := inv.failed_mem w e hw
  refine ⟨?_, inv.returned_mem, ?_, ?_, ?_, inv.closed_iff, ?_, ?_, ?_⟩
  · intro e' he'
    have he'' : offer s.errChan e = some e' := he'
    cases hec : s.errChan with
    | none =>
      rw [hec] at he''
      have : e' = e := (Option.some.inj he'').symm
      rw [this]
      exact hmem
    | some e₀ =>
      rw [hec] at he''
      have : e' = e₀ := (Option.some.inj he'').symm
      rw [this]
      exact inv.errChan_mem e₀ hec
  · intro v e' hv
    rcases set_getElem?_cases _ _ _ _ _ hv with ⟨-, h2⟩ | ⟨-, h2⟩
    · exact Worker.noConfusion h2
    · exact inv.failed_mem v e' h2
  · intro _
    left
    show (offer s.errChan e).isSome = true
    cases s.errChan <;> rfl
  · intro hc
    exact absurd hc (not_past_wait s inv w _ hw (fun he => Worker.noConfusion he))
  · intro _ _ _ hnil
    rw [hnil] at hmem
    exact absurd hmem (List.not_mem_nil e)
  · exact (List.length_set _ _ _).trans inv.workers_length
  · intro hc
    exact absurd (Or.inr hc) (not_past_wait s inv w _ hw (fun he => Worker.noConfusion he))

/-- Every step keeps the invariant. -/
theorem inv_step (n : Nat) (s s' : LoadState) (a : Action) (inv : Inv s)
    (h : step n s a = some s') : Inv s' := by
  cases a with
  | feedSend => exact inv_feedSend n s s' inv h
  | feedRecvErr => exact inv_feedRecvErr n s s' inv h
  | feedExit => exact inv_feedExit n s s' inv h
  | waitDone => exact inv_waitDone s s' inv h
  | finalSelect => exact inv_finalSelect s s' inv h
  | workerRecv w => exact inv_workerRecv s s' w inv h
  | workerExit w => exact inv_workerExit s s' w inv h
  | batchOk w => exact inv_batchOk s s' w inv h
  | batchFail w e => exact inv_batchFail s s' w e inv h
  | workerReport w => exact inv_workerReport s s' w inv h

theorem run_cons (n : Nat) (s : LoadState) (a : Action) (rest : List Action) :
    run n s (a :: rest) =
      match step n s a with
      | some s' => run n s' rest
      | none => none := rfl

/-- Every execution keeps the invariant. -/
theorem inv_run (n : Nat) : ∀ (acts : List Action) (s s' : LoadState), Inv s →
    run n s acts = some s' → Inv s' := by
  intro acts
  induction acts with
  | nil =>
    intro s s' inv h
    rw [← Option.some.inj h]
    exact inv
  | cons a rest ih =>
    intro s s' inv h
    rw [run_cons] at h
    cases hs : step n s a with
    | none => rw [hs] at h; exact Option.noConfusion h
    | some s₁ =>
      rw [hs] at h
      exact ih s₁ s' (inv_step n s s₁ a inv hs) h

theorem sum_weight_set : ∀ (l : List Worker) (w : Nat) (old x : Worker), l[w]? = some old →
    ((l.set w x).map Worker.weight).sum + old.weight = (l.map Worker.weight).sum + x.weight := by
  intro l
  induction l with
  | nil => intro w old x h; simp at h
  | cons y ys ih =>
    intro w old x h
    cases w with
    | zero =>
      simp only [List.getElem?_cons_zero, Option.some.injEq] at h
      subst h
      simp only [List.set_cons_zero, List.map_cons, List.sum_cons]
      omega
    | succ w =>
      rw [List.getElem?_cons_succ] at h
      have := ih w old x h
      simp only [List.set_cons_succ, List.map_cons, List.sum_cons]
      omega

/-- Every step decreases the measure. -/
theorem measure_step (n : Nat) (s s' : LoadState) (a : Action) (h : step n s a = some s') :
    loadMeasure n s' < loadMeasure n s := by
  cases a with
  | feedSend =>
    obtain ⟨start, hc, hlt, -, -, rfl⟩ := stepFeedSend_some n s s' h
    simp only [loadMeasure, hc, Coord.weight, List.length_append, List.length_singleton,
      chunk_eq]
    omega
  | feedRecvErr =>
    obtain ⟨start, e, hc, -, -, rfl⟩ := stepFeedRecvErr_some n s s' h
    simp only [loadMeasure, hc, Coord.weight]
    omega
  | feedExit =>
    obtain ⟨start, hc, -, rfl⟩ := stepFeedExit_some n s s' h
    simp only [loadMeasure, hc, Coord.weight]
    omega
  | waitDone =>
    obtain ⟨hc, -, rfl⟩ := stepWaitDone_some s s' h
    simp only [loadMeasure, hc, Coord.weight]
    omega
  | finalSelect =>
    obtain ⟨hc, rfl⟩ := stepFinalSelect_some s s' h
    simp only [loadMeasure, hc, Coord.weight]
    omega
  | workerRecv w =>
    obtain ⟨c, rest, hw, hb, rfl⟩ := stepWorkerRecv_some s s' w h
    have := sum_weight_set s.workers w _ (Worker.holding c) hw
    simp only [loadMeasure, hb, List.length_cons, Worker.weight] at this ⊢
    omega
  | workerExit w =>
    obtain ⟨hw, -, -, rfl⟩ := stepWorkerExit_some s s' w h
    have := sum_weight_set s.workers w _ Worker.done hw
    simp only [loadMeasure, Worker.weight] at this ⊢
    omega
  | batchOk w =>
    obtain ⟨c, hw, rfl⟩ := stepBatchOk_some s s' w h
    have := sum_weight_set s.workers w _ Worker.waiting hw
    simp only [loadMeasure, Worker.weight] at this ⊢
    omega
  | batchFail w e =>
    obtain ⟨c, hw, rfl⟩ := stepBatchFail_some s s' w e h
    have := sum_weight_set s.workers w _ (Worker.failed e) hw
    simp only [loadMeasure, Worker.weight] at this ⊢
    omega
  | workerReport w =>
    obtain ⟨e, hw, rfl⟩ := stepWorkerReport_some s s' w h
    have := sum_weight_set s.workers w _ Worker.done hw
    simp only [loadMeasure, Worker.weight] at this ⊢
    omega

/-- An execution is no longer than the measure of the state it starts from. -/
theorem run_length (n : Nat) : ∀ (acts : List Action) (s s' : LoadState),
    run n s acts = some s' → acts.length + loadMeasure n s' ≤ loadMeasure n s := by
  intro acts
  induction acts with
  | nil =>
    intro s s' h
    rw [← Option.some.inj h]
    simp
  | cons a rest ih =>
    intro s s' h
    rw [run_cons] at h
    cases hs : step n s a with
    | none => rw [hs] at h; exact Option.noConfusion h
    | some s₁ =>
      rw [hs] at h
      have h1 := ih s₁ s' h
      have h2 := measure_step n s s₁ a hs
      rw [List.length_cons]
      omega

theorem measure_init (n : Nat) : loadMeasure n initState = 3 * n + 15 := by
  have hw : ((List.replicate numWorkers Worker.waiting).map Worker.weight).sum = 12 := by decide
  simp only [loadMeasure, initState, Coord.weight, List.length_nil, hw]
  omega

theorem run_failures (n : Nat) : ∀ (acts : List Action) (s s' : LoadState),
    run n s acts = some s' → s'.failures = s.failures ++ failuresOf acts := by
  intro acts
  induction acts with
  | nil =>
    intro s s' h
    rw [← Option.some.inj h]
    simp [failuresOf]
  | cons a rest ih =>
    intro s s' h
    rw [run_cons] at h
    cases hs : step n s a with
    | none => rw [hs] at h; exact Option.noConfusion h
    | some s₁ =>
      rw [hs] at h
      rw [ih s₁ s' h]
      cases a with
      | feedSend =>
        obtain ⟨_, -, -, -, -, rfl⟩ := stepFeedSend_some n s s₁ hs
        rfl
      | feedRecvErr =>
        obtain ⟨_, _, -, -, -, rfl⟩ := stepFeedRecvErr_some n s s₁ hs
        rfl
      | feedExit =>
        obtain ⟨_, -, -, rfl⟩ := stepFeedExit_some n s s₁ hs
        rfl
      | waitDone =>
        obtain ⟨-, -, rfl⟩ := stepWaitDone_some s s₁ hs
        rfl
      | finalSelect =>
        obtain ⟨-, rfl⟩ := stepFinalSelect_some s s₁ hs
        rfl
      | workerRecv w =>
        obtain ⟨_, _, -, -, rfl⟩ := stepWorkerRecv_some s s₁ w hs
        rfl
      | workerExit w =>
        obtain ⟨-, -, -, rfl⟩ := stepWorkerExit_some s s₁ w hs
        rfl
      | batchOk w =>
        obtain ⟨_, -, rfl⟩ := stepBatchOk_some s s₁ w hs
        rfl
      | batchFail w e =>
        obtain ⟨_, -, rfl⟩ := stepBatchFail_some s s₁ w e hs
        show (s.failures ++ [e]) ++ failuresOf rest = s.failures ++ failuresOf (_ :: rest)
        rw [List.append_assoc]
        rfl
      | workerReport w =>
        obtain ⟨_, -, rfl⟩ := stepWorkerReport_some s s₁ w hs
        rfl

/-- Once `createIndex` has returned, a step changes neither its result nor the chunks
that have been fed: only workers move. -/
theorem returned_step (n : Nat) (s s' : LoadState) (a : Action) (r : Option GoError)
    (hr : s.coord = Coord.returned r) (h : step n s a = some s') :
    s'.coord = Coord.returned r ∧ s'.fed = s.fed := by
  cases a with
  | feedSend =>
    obtain ⟨_, hc, -⟩ := stepFeedSend_some n s s' h
    rw [hr] at hc; exact Coord.noConfusion hc
  | feedRecvErr =>
    obtain ⟨_, _, hc, -⟩ := stepFeedRecvErr_some n s s' h
    rw [hr] at hc; exact Coord.noConfusion hc
  | feedExit =>
    obtain ⟨_, hc, -⟩ := stepFeedExit_some n s s' h
    rw [hr] at hc; exact Coord.noConfusion hc
  | waitDone =>
    obtain ⟨hc, -⟩ := stepWaitDone_some s s' h
    rw [hr] at hc; exact Coord.noConfusion hc
  | finalSelect =>
    obtain ⟨hc, -⟩ := stepFinalSelect_some s s' h
    rw [hr] at hc; exact Coord.noConfusion hc
  | workerRecv w =>
    obtain ⟨_, _, -, -, rfl⟩ := stepWorkerRecv_some s s' w h
    exact ⟨hr, rfl⟩
  | workerExit w =>
    obtain ⟨-, -, -, rfl⟩ := stepWorkerExit_some s s' w h
    exact ⟨hr, rfl⟩
  | batchOk w =>
    obtain ⟨_, -, rfl⟩ := stepBatchOk_some s s' w h
    exact ⟨hr, rfl⟩
  | batchFail w e =>
    obtain ⟨_, -, rfl⟩ := stepBatchFail_some s s' w e h
    exact ⟨hr, rfl⟩
  | workerReport w =>
    obtain ⟨_, -, rfl⟩ := stepWorkerReport_some s s' w h
    exact ⟨hr, rfl⟩

theorem returned_run (n : Nat) (r : Option GoError) : ∀ (acts : List Action) (s s' : LoadState),
    s.coord = Coord.returned r → run n s acts = some s' →
      s'.coord = Coord.returned r ∧ s'.fed = s.fed := by
  intro acts
  induction acts with
  | nil =>
    intro s s' hr h
    rw [← Option.some.inj h]
    exact ⟨hr, rfl⟩
  | cons a rest ih =>
    intro s s' hr h
    rw [run_cons] at h
    cases hs : step n s a with
    | none => rw [hs] at h; exact Option.noConfusion h
    | some s₁ =>
      rw [hs] at h
      obtain ⟨h1, h2⟩ := returned_step n s s₁ a r hr hs
      obtain ⟨h3, h4⟩ := ih s₁ s' h1 h
      exact ⟨h3, h4.trans h2⟩

/-- A worker that has not returned can take a step once `batches` is closed or not
empty. -/
theorem worker_can_step (n : Nat) (s : LoadState) (w : Nat) (x : Worker)
    (hw : s.workers[w]? = some x) (hx : x ≠ Worker.done)
    (hb : s.batches ≠ [] ∨ s.closed = true) : ∃ a s', step n s a = some s' := by
  cases x with
  | waiting =>
    cases hbs : s.batches with
    | nil =>
      have hcl : s.closed = true := hb.resolve_left (fun h => h hbs)
      exact ⟨Action.workerExit w, _, by
        show stepWorkerExit s w = _
        simp only [stepWorkerExit, hw, hbs, hcl, if_true]
        rfl⟩
    | cons c rest =>
      exact ⟨Action.workerRecv w, _, by
        show stepWorkerRecv s w = _
        simp only [stepWorkerRecv, hw, hbs]
        rfl⟩
  | holding c =>
    exact ⟨Action.batchOk w, _, by
      show stepBatchOk s w = _
      simp only [stepBatchOk, hw]
      rfl⟩
  | failed e =>
    exact ⟨Action.workerReport w, _, by
      show stepWorkerReport s w = _
      simp only [stepWorkerReport, hw]
      rfl⟩
  | done => exact absurd rfl hx

theorem exists_not_done (ws : List Worker) (h : allDone ws ≠ true) :
    ∃ (w : Nat) (x : Worker), ws[w]? = some x ∧ x ≠ Worker.done := by
  unfold allDone at h
  rw [Ne, List.all_eq_true] at h
  push_neg at h
  obtain ⟨x, hx, hne⟩ := h
  obtain ⟨w, hw⟩ := List.mem_iff_getElem?.1 hx
  exact ⟨w, x, hw, by simpa using hne⟩

/-- No deadlock: as long as `createIndex` has not returned some goroutine can take a
step. -/
theorem progress (n : Nat) (s : LoadState) (inv : Inv s)
    (hnr : ∀ r, s.coord ≠ Coord.returned r) : ∃ a s', step n s a = some s' := by
  cases hc : s.coord with
  | returned r => exact absurd hc (hnr r)
  | finalSelect =>
    exact ⟨Action.finalSelect, _, by
      show stepFinalSelect s = _
      simp only [stepFinalSelect, hc]
      rfl⟩
  | waiting =>
    have hcl : s.closed = true := by
      cases hcl : s.closed with
      | true => rfl
      | false =>
        obtain ⟨start, hs⟩ := inv.closed_iff.1 hcl
        rw [hc] at hs
        exact Coord.noConfusion hs
    by_cases hall : allDone s.workers = true
    · exact ⟨Action.waitDone, _, by
        show stepWaitDone s = _
        simp only [stepWaitDone, hc, hall, if_true]
        rfl⟩
    · obtain ⟨w, x, hw, hx⟩ := exists_not_done s.workers hall
      exact worker_can_step n s w x hw hx (Or.inr hcl)
  | feeding start =>
    have hcl : s.closed = false := inv.closed_iff.2 ⟨start, hc⟩
    by_cases hlt : start < n
    · by_cases hroom : s.batches.length < queueBuffer
      · exact ⟨Action.feedSend, _, by
          show stepFeedSend n s = _
          simp only [stepFeedSend, hc, hlt, hroom, hcl, and_self, if_true]
          rfl⟩
      · have hne : s.batches ≠ [] := by
          intro he
          rw [he] at hroom
          exact hroom (by decide)
        by_cases hall : allDone s.workers = true
        · have h0 : (0 : Nat) < s.workers.length := by
            rw [inv.workers_length]; decide
          have hw0 : s.workers[0]? = some s.workers[0] := List.getElem?_eq_getElem h0
          have hd0 := allDone_getElem? s.workers hall 0 _ hw0
          rw [hd0] at hw0
          have hf := inv.done_failed hcl 0 hw0
          rcases inv.latched hf with h1 | ⟨e, h2⟩ | ⟨v, e, h3⟩
          · cases hec : s.errChan with
            | none => rw [hec] at h1; exact Bool.noConfusion h1
            | some e =>
              exact ⟨Action.feedRecvErr, _, by
                show stepFeedRecvErr n s = _
                simp only [stepFeedRecvErr, hc, hec, hlt, if_true]
                rfl⟩
          · rw [hc] at h2; exact Coord.noConfusion h2
          · exact Worker.noConfusion (allDone_getElem? s.workers hall v _ h3)
        · obtain ⟨w, x, hw, hx⟩ := exists_not_done s.workers hall
          exact worker_can_step n s w x hw hx (Or.inl hne)
    · exact ⟨Action.feedExit, _, by
        show stepFeedExit n s = _
        simp only [stepFeedExit, hc, hlt, if_false]
        rfl⟩

/-- From every state that satisfies the invariant the load can be run until
`createIndex` has returned. -/
theorem can_return (n : Nat) : ∀ (k : Nat) (s : LoadState), Inv s → loadMeasure n s ≤ k →
    ∃ acts s', run n s acts = some s' ∧ hasReturned s' = true := by
  intro k
  induction k with
  | zero =>
    intro s inv hk
    cases hc : s.coord with
    | returned r => exact ⟨[], s, rfl, by simp only [hasReturned, hc]⟩
    | finalSelect => simp only [loadMeasure, hc, Coord.weight] at hk; omega
    | waiting => simp only [loadMeasure, hc, Coord.weight] at hk; omega
    | feeding start => simp only [loadMeasure, hc, Coord.weight] at hk; omega
  | succ k ih =>
    intro s inv hk
    by_cases hr : hasReturned s = true
    · exact ⟨[], s, rfl, hr⟩
    · have hnr : ∀ r, s.coord ≠ Coord.returned r := by
        intro r hc
        exact hr (by simp only [hasReturned, hc])
      obtain ⟨a, s₁, hs⟩ := progress n s inv hnr
      have hm := measure_step n s s₁ a hs
      obtain ⟨acts, s', hrun, hret⟩ := ih s₁ (inv_step n s s₁ a inv hs) (by omega)
      exact ⟨a :: acts, s', by rw [run_cons, hs]; exact hrun, hret⟩

theorem feedLoop_succ_of_lt (len n fuel start : Nat) (rest : List Chunk) (h : start < n)
    (hrest : feedLoop len n fuel (start + len) = some rest) :
    feedLoop len n (fuel + 1) start =
      some ({ start := start, stop := chunkEnd len n start } :: rest) := by
  rw [feedLoop, if_pos h, hrest]

theorem fedInv_init (n : Nat) : FedInv n initState := by
  refine ⟨?_, ?_, ?_⟩
  · intro start hc fuel rest h
    have hs : start = 0 := by
      injection hc with hc
      exact hc.symm
    rw [hs] at h
    exact ⟨fuel, by rw [h]; rfl⟩
  · intro h
    rcases h with h | h | h <;> exact Coord.noConfusion h
  · obtain ⟨cs, hcs, -⟩ := feedLoop_chain chunk n (by decide) (n + 1) 0 (by omega)
    exact ⟨cs, n + 1, by rw [hcs]; rfl⟩

theorem fedInv_step (n : Nat) (s s' : LoadState) (a : Action) (inv : FedInv n s)
    (h : step n s a = some s') : FedInv n s' := by
  obtain ⟨inv1, inv2, inv3⟩ := inv
  cases a with
  | feedSend =>
    obtain ⟨start, hc, hlt, -, -, rfl⟩ := stepFeedSend_some n s s' h
    have key : ∀ fuel rest, feedLoop chunk n fuel (start + chunk) = some rest →
        ∃ fuel', feedLoop chunk n fuel' 0 =
          some ((s.fed ++ [{ start := start, stop := chunkEnd chunk n start }]) ++ rest) := by
      intro fuel rest hrest
      obtain ⟨fuel', hf⟩ := inv1 start hc (fuel + 1) _
        (feedLoop_succ_of_lt chunk n fuel start rest hlt hrest)
      exact ⟨fuel', by rw [hf, List.append_assoc]; rfl⟩
    refine ⟨?_, ?_, ?_⟩
    · intro start' hc' fuel rest hrest
      have hs : start' = start + chunk := by
        injection hc' with hc'
        exact hc'.symm
      rw [hs] at hrest
      exact key fuel rest hrest
    · intro hh
      rcases hh with hh | hh | hh <;> exact Coord.noConfusion hh
    · obtain ⟨cs, hcs, -⟩ :=
        feedLoop_chain chunk n (by decide) (n + 1) (start + chunk) (by omega)
      obtain ⟨fuel', hf⟩ := key (n + 1) cs hcs
      exact ⟨cs, fuel', hf⟩
  | feedRecvErr =>
    obtain ⟨start, e, hc, -, -, rfl⟩ := stepFeedRecvErr_some n s s' h
    refine ⟨?_, ?_, inv3⟩
    · intro start' hc'
      exact Coord.noConfusion hc'
    · intro hh
      rcases hh with hh | hh | hh
      · exact Coord.noConfusion hh
      · exact Coord.noConfusion hh
      · injection hh with hh
        exact Option.noConfusion hh
  | feedExit =>
    obtain ⟨start, hc, hlt, rfl⟩ := stepFeedExit_some n s s' h
    refine ⟨?_, ?_, inv3⟩
    · intro start' hc'
      exact Coord.noConfusion hc'
    · intro _
      obtain ⟨fuel', hf⟩ := inv1 start hc 1 [] (by rw [feedLoop, if_neg hlt])
      exact ⟨fuel', by rw [hf, List.append_nil]⟩
  | waitDone =>
    obtain ⟨hc, -, rfl⟩ := stepWaitDone_some s s' h
    refine ⟨?_, ?_, inv3⟩
    · intro start' hc'
      exact Coord.noConfusion hc'
    · intro _
      exact inv2 (Or.inl hc)
  | finalSelect =>
    obtain ⟨hc, rfl⟩ := stepFinalSelect_some s s' h
    refine ⟨?_, ?_, inv3⟩
    · intro start' hc'
      exact Coord.noConfusion hc'
    · intro _
      exact inv2 (Or.inr (Or.inl hc))
  | workerRecv w =>
    obtain ⟨_, _, -, -, rfl⟩ := stepWorkerRecv_some s s' w h
    exact ⟨inv1, inv2, inv3⟩
  | workerExit w =>
    obtain ⟨-, -, -, rfl⟩ := stepWorkerExit_some s s' w h
    exact ⟨inv1, inv2, inv3⟩
  | batchOk w =>
    obtain ⟨_, -, rfl⟩ := stepBatchOk_some s s' w h
    exact ⟨inv1, inv2, inv3⟩
  | batchFail w e =>
    obtain ⟨_, -, rfl⟩ := stepBatchFail_some s s' w e h
    exact ⟨inv1, inv2, inv3⟩
  | workerReport w =>
    obtain ⟨_, -, rfl⟩ := stepWorkerReport_some s s' w h
    exact ⟨inv1, inv2, inv3⟩

theorem fedInv_run (n : Nat) : ∀ (acts : List Action) (s s' : LoadState), FedInv n s →
    run n s acts = some s' → FedInv n s' := by
  intro acts
  induction acts with
  | nil =>
    intro s s' inv h
    rw [← Option.some.inj h]
    exact inv
  | cons a rest ih =>
    intro s s' inv h
    rw [run_cons] at h
    cases hs : step n s a with
    | none => rw [hs] at h; exact Option.noConfusion h
    | some s₁ =>
      rw [hs] at h
      exact ih s₁ s' (fedInv_step n s s₁ a inv hs) h

/-- In an execution in which the coordinator has left the feeding loop by its
condition (no worker error was received in the loop), the chunks fed are the chunks
of `partition`. -/
theorem fed_eq_partition (n : Nat) (acts : List Action) (s : LoadState)
    (hrun : run n initState acts = some s)
    (hc : s.coord = Coord.waiting ∨ s.coord = Coord.finalSelect ∨
      s.coord = Coord.returned none) :
    partition n = some s.fed := by
  obtain ⟨fuel', hf⟩ := (fedInv_run n acts initState s (fedInv_init n) hrun).2.1 hc
  obtain ⟨cs, hcs, -, huniq⟩ := partition_facts chunk n (by decide)
  rw [huniq fuel' s.fed hf]
  exact hcs

/-- In every execution the chunks fed so far are a prefix of the chunks of `partition`. -/
theorem fed_prefix_partition (n : Nat) (acts : List Action) (s : LoadState)
    (hrun : run n initState acts = some s) :
    ∃ cs rest, partition n = some cs ∧ cs = s.fed ++ rest := by
  obtain ⟨rest, fuel', hf⟩ := (fedInv_run n acts initState s (fedInv_init n) hrun).2.2
  obtain ⟨cs, hcs, -, huniq⟩ := partition_facts chunk n (by decide)
  exact ⟨cs, rest, hcs, (huniq fuel' _ hf).symm⟩

/-! ## Claims on the partition loop -/

/-- C1: with `batchSize = 50000` and `numWorkers = 12` (chunk length 4166), for every
catalog length `n` the feeding loop, on the path where no worker error is received,
finishes and sends a list of chunks that partitions `[0, n)`: the first chunk starts
at 0, each next chunk starts where the previous one stops, the last chunk stops at
`n`, every position `i < n` lies in exactly one chunk, and the positions carried by
the chunks, read in order, are `0, 1, ..., n - 1`.  In every execution of the load in
which the coordinator has left the feeding loop by its condition, these are the
chunks that were fed. -/
theorem C1_partition_covers (n : Nat) :
    chunk = 4166 ∧
    ∃ cs, partition n = some cs ∧
      (∀ fuel cs', feedLoop chunk n fuel 0 = some cs' → cs' = cs) ∧
      (0 < n → ∃ c, cs.head? = some c ∧ c.start = 0) ∧
      (∀ k c d, cs[k]? = some c → cs[k + 1]? = some d → d.start = c.stop) ∧
      (0 < n → ∃ c, cs.getLast? = some c ∧ c.stop = n) ∧
      (∀ i, i < n → (cs.filter (fun c => c.covers i)).length = 1) ∧
      (cs.map (Chunk.indices n)).flatten = List.range n ∧
      (∀ acts s, run n initState acts = some s →
        (s.coord = Coord.waiting ∨ s.coord = Coord.finalSelect ∨
          s.coord = Coord.returned none) → s.fed = cs) := by
  refine ⟨chunk_eq, ?_⟩
  obtain ⟨cs, hcs, hchain, huniq⟩ := partition_facts chunk n (by decide)
  refine ⟨cs, hcs, huniq, ?_, ?_, ?_, ?_, ?_, ?_⟩
  · exact fun hn => chain_head chunk n cs 0 hchain hn
  · exact fun k c d hc hd => (chain_adjacent chunk n cs 0 k c d hchain hc hd).1
  · exact fun hn => chain_getLast chunk n cs 0 hchain hn
  · exact fun i hi => chain_cover_once chunk n cs 0 i hchain (Nat.zero_le i) hi
  · rw [chain_flatten chunk n cs 0 (Nat.zero_le n) hchain, List.range_eq_range']
    rfl
  · intro acts s hrun hc
    have h := fed_eq_partition n acts s hrun hc
    have hcs' : partition n = some cs := hcs
    rw [hcs'] at h
    exact (Option.some.inj h).symm

/-- C6: with chunk length `c = batchSize / numWorkers = 4166`, for every catalog
length `n` every chunk the partition loop produces except the last has exactly `c`
positions, the last has between 1 and `c`, no chunk is empty, and the number of
chunks is the ceiling of `n / c` (written `(n + c - 1) / c`, and characterised by
`c * (k - 1) < n ≤ c * k` for `n > 0`, and as the ceiling of the rational quotient);
for `n = 0` there is no chunk. -/
theorem C6_chunk_sizes (n : Nat) :
    chunk = batchSize / numWorkers ∧ chunk = 4166 ∧
    ∃ cs, partition n = some cs ∧
      (∀ k c, cs[k]? = some c → k + 1 < cs.length → c.size = chunk) ∧
      (∀ c, cs.getLast? = some c → 1 ≤ c.size ∧ c.size ≤ chunk) ∧
      (∀ c ∈ cs, 1 ≤ c.size) ∧
      cs.length = (n + chunk - 1) / chunk ∧
      (0 < n → chunk * (cs.length - 1) < n ∧ n ≤ chunk * cs.length) ∧
      cs.length = ⌈(n : ℚ) / (chunk : ℚ)⌉₊ ∧
      (n = 0 → cs = []) := by
  refine ⟨rfl, chunk_eq, ?_⟩
  obtain ⟨cs, hcs, hchain, -⟩ := partition_facts chunk n (by decide)
  have hlen : cs.length = (n + chunk - 1) / chunk := by
    simpa using chain_length chunk n (by decide) cs 0 hchain
  have hbounds : 0 < n → chunk * (cs.length - 1) < n ∧ n ≤ chunk * cs.length := by
    intro hn
    rw [hlen, chunk_eq]
    omega
  refine ⟨cs, hcs, ?_, ?_, ?_, hlen, hbounds, ?_, ?_⟩
  · intro k c hc hk
    obtain ⟨d, hd⟩ : ∃ d, cs[k + 1]? = some d := ⟨cs[k + 1], List.getElem?_eq_getElem hk⟩
    exact (chain_adjacent chunk n cs 0 k c d hchain hc hd).2
  · intro c hc
    have hmem : c ∈ cs := List.mem_of_getLast?_eq_some hc
    have := chain_mem_size chunk n cs 0 hchain c hmem
    exact ⟨this.1, this.2.1⟩
  · exact fun c hc => (chain_mem_size chunk n cs 0 hchain c hc).1
  · rcases Nat.eq_zero_or_pos n with h0 | hn
    · subst h0
      rw [hlen, chunk_eq]
      simp
    · obtain ⟨hlo, hhi⟩ := hbounds hn
      have hpos : cs.length ≠ 0 := by
        intro h0
        rw [h0] at hhi
        omega
      symm
      rw [Nat.ceil_eq_iff hpos]
      have hc : (0 : ℚ) < (chunk : ℚ) := by rw [chunk_eq]; norm_num
      constructor
      · rw [lt_div_iff₀ hc]
        have : ((cs.length - 1 : ℕ) : ℚ) * (chunk : ℚ) = ((chunk * (cs.length - 1) : ℕ) : ℚ) := by
          push_cast; ring
        rw [this]
        exact_mod_cast hlo
      · rw [div_le_iff₀ hc]
        have : (cs.length : ℚ) * (chunk : ℚ) = ((chunk * cs.length : ℕ) : ℚ) := by
          push_cast; ring
        rw [this]
        exact_mod_cast hhi
  · intro h0
    subst h0
    have : cs.length = 0 := by rw [hlen, chunk_eq]
    exact List.length_eq_zero.1 this

/-- C7 as stated fails: with `batchSize = 1` and `numWorkers = 2` (both at least 1) the
chunk length is `1 / 2 = 0`, and on a catalog of one record the loop never
finishes, whatever the fuel. -/
theorem C7_counterexample :
    1 ≤ (1 : Nat) ∧ 1 ≤ (2 : Nat) ∧ chunkLen 1 2 = 0 ∧
      ¬ ∃ fuel cs, feedLoop (chunkLen 1 2) 1 fuel 0 = some cs := by
  refine ⟨by decide, by decide, by decide, ?_⟩
  rintro ⟨fuel, cs, h⟩
  have h0 : chunkLen 1 2 = 0 := by decide
  rw [h0, feedLoop_zero_chunk 1 0 (by decide) fuel] at h
  exact Option.noConfusion h

/-- C7, amended: for every catalog length `n` and partition parameters with
`numWorkers ≥ 1` (and any `batchSize`, so any `batchSize ≥ 1`), the partition loop
terminates exactly when
`numWorkers ≤ batchSize` (the chunk length `batchSize / numWorkers` is at least 1) or
`n = 0`; and then (fuel `n + 1` suffices, the result does not depend on the fuel) its
chunks cover `[0, n)` exactly once: consecutive chunks are adjacent, no chunk is empty
or reaches beyond `n`, every position lies in exactly one chunk, and the positions
carried, read in order, are `0, ..., n - 1`. -/
theorem C7_partition_general (n batchSize numWorkers : Nat) (hw : 1 ≤ numWorkers) :
    ((∃ fuel cs, feedLoop (chunkLen batchSize numWorkers) n fuel 0 = some cs) ↔
      (numWorkers ≤ batchSize ∨ n = 0)) ∧
    (numWorkers ≤ batchSize ∨ n = 0 →
      ∃ cs, partitionWith batchSize numWorkers n = some cs ∧
        (∀ fuel cs', feedLoop (chunkLen batchSize numWorkers) n fuel 0 = some cs' → cs' = cs) ∧
        (∀ k c d, cs[k]? = some c → cs[k + 1]? = some d → d.start = c.stop) ∧
        (∀ c ∈ cs, c.start < c.stop ∧ c.stop ≤ n) ∧
        (∀ i, i < n → (cs.filter (fun c => c.covers i)).length = 1) ∧
        (cs.map (Chunk.indices n)).flatten = List.range n) := by
  have main : numWorkers ≤ batchSize ∨ n = 0 →
      ∃ cs, partitionWith batchSize numWorkers n = some cs ∧
        (∀ fuel cs', feedLoop (chunkLen batchSize numWorkers) n fuel 0 = some cs' → cs' = cs) ∧
        (∀ k c d, cs[k]? = some c → cs[k + 1]? = some d → d.start = c.stop) ∧
        (∀ c ∈ cs, c.start < c.stop ∧ c.stop ≤ n) ∧
        (∀ i, i < n → (cs.filter (fun c => c.covers i)).length = 1) ∧
        (cs.map (Chunk.indices n)).flatten = List.range n := by
    intro h
    rcases h with hb | h0
    · have hlen : 0 < chunkLen batchSize numWorkers := Nat.div_pos hb hw
      obtain ⟨cs, hcs, hchain, huniq⟩ :=
        partition_facts (chunkLen batchSize numWorkers) n hlen
      refine ⟨cs, hcs, huniq, ?_, ?_, ?_, ?_⟩
      · exact fun k c d hc hd => (chain_adjacent _ n cs 0 k c d hchain hc hd).1
      · intro c hc
        have := chain_mem_size _ n cs 0 hchain c hc
        simp only [Chunk.size] at this
        omega
      · exact fun i hi => chain_cover_once _ n cs 0 i hchain (Nat.zero_le i) hi
      · rw [chain_flatten _ n cs 0 (Nat.zero_le n) hchain, List.range_eq_range']
        rfl
    · subst h0
      have hrun : feedLoop (chunkLen batchSize numWorkers) 0 (0 + 1) 0 = some [] := rfl
      refine ⟨[], hrun, ?_, ?_, ?_, ?_, rfl⟩
      · exact fun fuel cs' h => feedLoop_fuel_irrelevant _ 0 fuel (0 + 1) 0 cs' [] h hrun
      · intro k c d hc
        simp at hc
      · intro c hc
        simp at hc
      · intro i hi
        omega
  refine ⟨⟨?_, ?_⟩, main⟩
  · rintro ⟨fuel, cs, h⟩
    by_contra hcon
    push_neg at hcon
    have h0 : chunkLen batchSize numWorkers = 0 := Nat.div_eq_of_lt hcon.1
    rw [h0, feedLoop_zero_chunk n 0 (Nat.pos_of_ne_zero hcon.2) fuel] at h
    exact Option.noConfusion h
  · intro h
    obtain ⟨cs, hcs, -⟩ := main h
    exact ⟨n + 1, cs, hcs⟩

/-- C7, amended, at a concrete input: `batchSize = 7`, `numWorkers = 2`, `n = 10`; the
chunks are `[0, 3)`, `[3, 6)`, `[6, 9)`, `[9, 10)`. -/
theorem C7_partition_general_witness :
    1 ≤ (2 : Nat) ∧
    partitionWith 7 2 10 =
      some [{ start := 0, stop := 3 }, { start := 3, stop := 6 }, { start := 6, stop := 9 },
        { start := 9, stop := 10 }] ∧
    ((∃ fuel cs, feedLoop (chunkLen 7 2) 10 fuel 0 = some cs) ↔ ((2 : Nat) ≤ 7 ∨ (10 : Nat) = 0)) ∧
    ((2 : Nat) ≤ 7 ∨ (10 : Nat) = 0 →
      ∃ cs, partitionWith 7 2 10 = some cs ∧
        (∀ fuel cs', feedLoop (chunkLen 7 2) 10 fuel 0 = some cs' → cs' = cs) ∧
        (∀ k c d, cs[k]? = some c → cs[k + 1]? = some d → d.start = c.stop) ∧
        (∀ c ∈ cs, c.start < c.stop ∧ c.stop ≤ 10) ∧
        (∀ i, i < 10 → (cs.filter (fun c => c.covers i)).length = 1) ∧
        (cs.map (Chunk.indices 10)).flatten = List.range 10) :=
  ⟨by decide, by decide, C7_partition_general 10 7 2 (by decide)⟩

/-! ## Claims on the catalog, the document keys and the search gateway -/

theorem sampleStore_invariant : StoreInvariant sampleStore := by
  intro i p h
  rcases i with _ | _ | _ | i
  · simp only [sampleStore, List.getElem?_cons_zero, Option.some.injEq] at h
    subst h; rfl
  · simp only [sampleStore, List.getElem?_cons_succ, List.getElem?_cons_zero,
      Option.some.injEq] at h
    subst h; rfl
  · simp only [sampleStore, List.getElem?_cons_succ, List.getElem?_cons_zero,
      Option.some.injEq] at h
    subst h; rfl
  · simp [sampleStore] at h

theorem searchCalls_pickRead (products : List Product) (hits : List Hit) :
    searchCalls (hits.filterMap (pickRead products)) = [] := by
  induction hits with
  | nil => rfl
  | cons hit rest ih =>
    by_cases hg : guardHolds products.length hit = true
    · have hread : pickRead products hit = some (Effect.storeRead ((atoi hit.ID).1 - 1)) := by
        rw [pickRead, if_pos hg]
      rw [List.filterMap_cons, hread]
      exact ih
    · have hread : pickRead products hit = none := by rw [pickRead, if_neg hg]
      rw [List.filterMap_cons, hread]
      exact ih

/-- The key built at load time hydrates to the record it was built from. -/
theorem pick_key (store : List Product) (hinv : StoreInvariant store)
    (hlen : (store.length : Int) ≤ maxInt) (i : Nat) (p : Product) (hp : store[i]? = some p) :
    atoi (itoa p.ID) = (p.ID, none) ∧ pick store { ID := itoa p.ID } = some p ∧
      pickRead store { ID := itoa p.ID } = some (Effect.storeRead (i : Int)) := by
  have hid := hinv i p hp
  have hi : i < store.length := by
    by_contra hc
    rw [List.getElem?_eq_none (Nat.le_of_not_lt hc)] at hp
    exact Option.noConfusion hp
  have hat : atoi (itoa p.ID) = (p.ID, none) := atoi_itoa p.ID (by omega) (by omega)
  have hg : guardHolds store.length { ID := itoa p.ID } = true := by
    rw [guardHolds_iff]
    show (atoi (itoa p.ID)).1 > 0 ∧ (atoi (itoa p.ID)).1 ≤ (store.length : Int)
    rw [hat]
    constructor
    · show p.ID > 0
      omega
    · show p.ID ≤ (store.length : Int)
      omega
  have hpos : (atoi (itoa p.ID)).1 - 1 = (i : Int) := by
    rw [hat]
    show p.ID - 1 = (i : Int)
    omega
  refine ⟨hat, ?_, ?_⟩
  · rw [pick, if_pos hg]
    show storeAt store ((atoi (itoa p.ID)).1 - 1) = some p
    rw [hpos, storeAt, if_pos (by omega)]
    simpa using hp
  · rw [pickRead, if_pos hg]
    show some (Effect.storeRead ((atoi (itoa p.ID)).1 - 1)) = _
    rw [hpos]

theorem hitsOf_hydrates (store : List Product) (hinv : StoreInvariant store)
    (hlen : (store.length : Int) ≤ maxInt) :
    ∀ is : List Nat, (∀ i ∈ is, i < store.length) →
      (hitsOf store is).filterMap (pick store) = recordsOf store is ∧
      (hitsOf store is).filterMap (pickRead store) = is.map (fun i : Nat => Effect.storeRead (i : Int)) ∧
      (recordsOf store is).length = is.length ∧
      buildBatch store (productIDs store) is =
        some (List.zip ((hitsOf store is).map Hit.ID) (recordsOf store is)) := by
  intro is
  induction is with
  | nil => intro _; exact ⟨rfl, rfl, rfl, rfl⟩
  | cons i rest ih =>
    intro h
    have hi : i < store.length := h i (List.mem_cons_self _ _)
    obtain ⟨ih1, ih2, ih3, ih4⟩ := ih (fun j hj => h j (List.mem_cons_of_mem _ hj))
    have hp : store[i]? = some store[i] := List.getElem?_eq_getElem hi
    obtain ⟨-, hpk, hrd⟩ := pick_key store hinv hlen i store[i] hp
    have hkey : (productIDs store)[i]? = some (itoa store[i].ID) := by
      rw [productIDs, List.getElem?_map, hp]
      rfl
    have hh : hitsOf store (i :: rest) = { ID := itoa store[i].ID } :: hitsOf store rest := by
      rw [hitsOf, List.filterMap_cons, hkey]
      rfl
    have hr : recordsOf store (i :: rest) = store[i] :: recordsOf store rest := by
      rw [recordsOf, List.filterMap_cons, hp]
      rfl
    rw [hh, hr, List.filterMap_cons, hpk, List.filterMap_cons, hrd, ih1, ih2]
    refine ⟨rfl, rfl, by rw [List.length_cons, List.length_cons, ih3], ?_⟩
    rw [buildBatch, hkey, hp]
    simp only [ih4, List.map_cons, List.zip_cons_cons]

/-- C2: for every catalog store with `store[i].ID == i + 1` (of a length below the
largest `int`, as every Go slice of records is) and every hit list the engine returns,
`searchProducts` returns without error records whose IDs are, in the same order, the
integers parsed from the keys of exactly the valid hits (key parses to a value in
`1..N`); the result has as many records as there are valid hits.  A hit is valid
exactly when its key is a decimal literal (optional sign, digits) that denotes an
integer in `1..N`, and that integer is what the key parses to. -/
theorem C2_hydration_ids (store : List Product) (hinv : StoreInvariant store)
    (hlen : (store.length : Int) < maxInt) (index : Engine) (q : String) (res : SearchResult)
    (hres : index.Search (mkRequest q) = Except.ok res) :
    (∃ out, searchProducts index store q = some out ∧ out.err = none ∧
      out.results.map Product.ID = (res.Hits.filter (validHit store.length)).map parsedId ∧
      out.results.length = (res.Hits.filter (validHit store.length)).length) ∧
    (∀ h : Hit,
      validHit store.length h =
        (decimalOk h.ID && decide (1 ≤ decimalVal h.ID) &&
          decide (decimalVal h.ID ≤ (store.length : Int))) ∧
      (validHit store.length h = true → parsedId h = decimalVal h.ID)) := by
  refine ⟨⟨_, searchProducts_ok index store q res hres, rfl, ?_, ?_⟩,
    fun h => validHit_eq_decimal store.length h⟩
  · show (res.Hits.filterMap (pick store)).map Product.ID = _
    rw [filterMap_pick_ids store hinv, filter_guard_eq_valid _ hlen]
  · show (res.Hits.filterMap (pick store)).length = _
    rw [filterMap_pick_length, filter_guard_eq_valid _ hlen]

/-- C2 at a concrete input: the three-record store and the hit keys `"2"`, `"abc"`, `""`,
an overflowing number, `"7"`, `"0"`, `"1"`; the records returned have the IDs 2 and 1. -/
theorem C2_hydration_ids_witness :
    StoreInvariant sampleStore ∧ (sampleStore.length : Int) < maxInt ∧
    (constEngine sampleHits).Search (mkRequest "shoes") =
      Except.ok { Hits := sampleHits, Total := 7 } ∧
    (sampleHits.filter (validHit sampleStore.length)).map parsedId = [2, 1] ∧
    ((∃ out, searchProducts (constEngine sampleHits) sampleStore "shoes" = some out ∧
      out.err = none ∧
      out.results.map Product.ID = (sampleHits.filter (validHit sampleStore.length)).map parsedId ∧
      out.results.length = (sampleHits.filter (validHit sampleStore.length)).length) ∧
    (∀ h : Hit,
      validHit sampleStore.length h =
        (decimalOk h.ID && decide (1 ≤ decimalVal h.ID) &&
          decide (decimalVal h.ID ≤ (sampleStore.length : Int))) ∧
      (validHit sampleStore.length h = true → parsedId h = decimalVal h.ID))) :=
  ⟨sampleStore_invariant, by decide, rfl, by decide,
    C2_hydration_ids sampleStore sampleStore_invariant (by decide) (constEngine sampleHits)
      "shoes" { Hits := sampleHits, Total := 7 } rfl⟩

/-- C3: whenever the engine returns a hit list, `searchProducts` returns a nil error and
does not panic; a hit that is not valid (its key does not parse as a decimal integer:
text, the empty string, a number that overflows the `int`; or its position `id - 1`
lies outside `[0, N)`) contributes no record, every read of the store is at a position
in `[0, N)`, there are as many records as valid hits, and taking an invalid hit out of
the hit list changes neither the records returned nor the reads of the store.  A hit
is valid exactly when its key is a decimal literal (optional sign, one or more digits)
that denotes an integer in `1..N`.  The store is shorter than the largest `int`, as
every Go slice of records is. -/
theorem C3_invalid_hits_skipped (store : List Product) (hlen : (store.length : Int) < maxInt)
    (index : Engine) (q : String) (res : SearchResult)
    (hres : index.Search (mkRequest q) = Except.ok res) :
    (∃ out, searchProducts index store q = some out ∧ out.err = none ∧
      (∀ h ∈ res.Hits, validHit store.length h = false → pick store h = none) ∧
      out.results.length = (res.Hits.filter (validHit store.length)).length ∧
      (∀ pos, Effect.storeRead pos ∈ out.trace → 0 ≤ pos ∧ pos < (store.length : Int)) ∧
      (∀ l₁ h l₂, res.Hits = l₁ ++ h :: l₂ → validHit store.length h = false →
        ∀ index' : Engine,
          index'.Search (mkRequest q) = Except.ok { Hits := l₁ ++ l₂, Total := res.Total } →
          ∃ out', searchProducts index' store q = some out' ∧ out'.err = none ∧
            out'.results = out.results ∧ out'.trace = out.trace)) ∧
    (∀ h : Hit, validHit store.length h =
      (decimalOk h.ID && decide (1 ≤ decimalVal h.ID) &&
        decide (decimalVal h.ID ≤ (store.length : Int)))) := by
  have hnone : ∀ h, validHit store.length h = false →
      pick store h = none ∧ pickRead store h = none := by
    intro h hv
    rw [← guardHolds_eq_validHit _ hlen] at hv
    exact ⟨by rw [pick, if_neg (by simp [hv])], by rw [pickRead, if_neg (by simp [hv])]⟩
  refine ⟨⟨_, searchProducts_ok index store q res hres, rfl, ?_, ?_, ?_, ?_⟩,
    fun h => (validHit_eq_decimal store.length h).1⟩
  · exact fun h _ hv => (hnone h hv).1
  · show (res.Hits.filterMap (pick store)).length = _
    rw [filterMap_pick_length, filter_guard_eq_valid _ hlen]
  · intro pos hpos
    have hpos' : Effect.storeRead pos ∈
        Effect.searchCall (mkRequest q) :: res.Hits.filterMap (pickRead store) := hpos
    rcases List.mem_cons.1 hpos' with heq | hmem
    · exact Effect.noConfusion heq
    · exact pickRead_in_range store res.Hits pos hmem
  · intro l₁ h l₂ hsplit hv index' hres'
    refine ⟨_, searchProducts_ok index' store q _ hres', rfl, ?_, ?_⟩
    · show (l₁ ++ l₂).filterMap (pick store) = res.Hits.filterMap (pick store)
      rw [hsplit, List.filterMap_append, List.filterMap_append, List.filterMap_cons,
        (hnone h hv).1]
    · show Effect.searchCall (mkRequest q) :: (l₁ ++ l₂).filterMap (pickRead store) =
        Effect.searchCall (mkRequest q) :: res.Hits.filterMap (pickRead store)
      rw [hsplit, List.filterMap_append, List.filterMap_append, List.filterMap_cons,
        (hnone h hv).2]

/-- C3 at a concrete input: the three-record store and the hit keys `"2"`, `"abc"`, `""`,
an overflowing number, `"7"`, `"0"`, `"1"`, of which only the first and the last are
valid. -/
theorem C3_invalid_hits_skipped_witness :
    (sampleStore.length : Int) < maxInt ∧
    (constEngine sampleHits).Search (mkRequest "shoes") =
      Except.ok { Hits := sampleHits, Total := 7 } ∧
    sampleHits.map (validHit sampleStore.length) =
      [true, false, false, false, false, false, true] ∧
    sampleHits.map keyParses = [true, false, false, false, true, true, true] ∧
    ((∃ out, searchProducts (constEngine sampleHits) sampleStore "shoes" = some out ∧
      out.err = none ∧
      (∀ h ∈ sampleHits, validHit sampleStore.length h = false → pick sampleStore h = none) ∧
      out.results.length = (sampleHits.filter (validHit sampleStore.length)).length ∧
      (∀ pos, Effect.storeRead pos ∈ out.trace → 0 ≤ pos ∧ pos < (sampleStore.length : Int)) ∧
      (∀ l₁ h l₂, sampleHits = l₁ ++ h :: l₂ → validHit sampleStore.length h = false →
        ∀ index' : Engine,
          index'.Search (mkRequest "shoes") = Except.ok { Hits := l₁ ++ l₂, Total := 7 } →
          ∃ out', searchProducts index' sampleStore "shoes" = some out' ∧ out'.err = none ∧
            out'.results = out.results ∧ out'.trace = out.trace)) ∧
    (∀ h : Hit, validHit sampleStore.length h =
      (decimalOk h.ID && decide (1 ≤ decimalVal h.ID) &&
        decide (decimalVal h.ID ≤ (sampleStore.length : Int))))) :=
  ⟨by decide, rfl, by decide, by decide,
    C3_invalid_hits_skipped sampleStore (by decide) (constEngine sampleHits) "shoes"
      { Hits := sampleHits, Total := 7 } rfl⟩

/-- C5 as stated fails: `searchProducts` has no guard on the query text.  Called with
the empty string on an engine that answers with no hit, it issues the `Search` call
and returns a nil error. -/
theorem C5_counterexample :
    searchProducts (constEngine []) sampleStore "" =
      some { results := [], err := none, trace := [Effect.searchCall (mkRequest "")] } ∧
    ¬ ∃ out, searchProducts (constEngine []) sampleStore "" = some out ∧
        out.err ≠ none ∧ searchCalls out.trace = [] := by
  have h : searchProducts (constEngine []) sampleStore "" =
      some { results := [], err := none, trace := [Effect.searchCall (mkRequest "")] } := rfl
  refine ⟨h, ?_⟩
  rintro ⟨out, hout, herr, -⟩
  rw [h] at hout
  injection hout with hout
  rw [← hout] at herr
  exact herr rfl

/-- C5, amended: the empty query is rejected by the `/search` handler, which answers
400 "q parameter required" without calling `searchProducts`, so no `Search` call is
issued; `searchProducts` itself does not inspect the query text: called with the empty
string it issues exactly one `Search` call, with the request built from the empty
string, and returns the engine's error or, on success, a nil error. -/
theorem C5_empty_query_rejected_by_handler :
    (∀ (index : Engine) (store : List Product),
      searchHandler index store "" = some (Response.badRequest "q parameter required", [])) ∧
    (∀ (index : Engine) (store : List Product),
      ∃ out, searchProducts index store "" = some out ∧
        searchCalls out.trace = [mkRequest ""] ∧
        (∀ e, index.Search (mkRequest "") = Except.error e → out.err = some e) ∧
        (∀ res, index.Search (mkRequest "") = Except.ok res → out.err = none)) := by
  constructor
  · intro index store
    rfl
  · intro index store
    cases hres : index.Search (mkRequest "") with
    | error e =>
      refine ⟨_, searchProducts_error index store "" e hres, rfl, ?_, ?_⟩
      · intro e' he'
        injection he' with he'
        rw [he']
      · intro res hr
        exact Except.noConfusion hr
    | ok res =>
      refine ⟨_, searchProducts_ok index store "" res hres, ?_, ?_, ?_⟩
      · show searchCalls (Effect.searchCall (mkRequest "") ::
          res.Hits.filterMap (pickRead store)) = [mkRequest ""]
        have := searchCalls_pickRead store res.Hits
        unfold searchCalls at this ⊢
        rw [List.filterMap_cons]
        simp only [this]
      · intro e he
        exact Except.noConfusion he
      · intro _ _
        rfl

/-- C8: for every query text, when the engine's `Search` call returns an error,
`searchProducts` returns that same error with an empty (nil) record list; its only
effect is the one `Search` call (no retry, no read of the catalog store), whatever
the store holds. -/
theorem C8_engine_error_propagated (index : Engine) (q : String) (e : GoError)
    (hres : index.Search (mkRequest q) = Except.error e) (store : List Product) :
    searchProducts index store q =
      some { results := [], err := some e, trace := [Effect.searchCall (mkRequest q)] } :=
  searchProducts_error index store q e hres

/-- C8 at a concrete input: an engine that fails every request with "index closed". -/
theorem C8_engine_error_propagated_witness :
    (failingEngine "index closed").Search (mkRequest "shoes") = Except.error "index closed" ∧
    searchProducts (failingEngine "index closed") sampleStore "shoes" =
      some { results := [], err := some "index closed",
             trace := [Effect.searchCall (mkRequest "shoes")] } :=
  ⟨rfl, C8_engine_error_propagated (failingEngine "index closed") "shoes" "index closed" rfl
    sampleStore⟩

/-- C9: key round trip.  For every catalog store with `store[i].ID == i + 1` (of a
length that an `int` can hold) and every position `i` in `[0, N)`: the document key
built at load time for position `i` is `strconv.Itoa(store[i].ID)`, a non-empty string
of decimal digits whose value is `store[i].ID`; the worker's batch pairs that key with
`store[i]`; `Atoi` parses the key back to `store[i].ID`; and hydrating a hit that
carries the key reads position `i` and yields exactly `store[i]`.  Hence, for positions
`i1, ..., im`, the write batch built for them pairs their keys with their records, and
hydrating the hit list made of these keys returns `store[i1], ..., store[im]`. -/
theorem C9_key_round_trip (store : List Product) (hinv : StoreInvariant store)
    (hlen : (store.length : Int) ≤ maxInt) :
    (∀ (i : Nat) (p : Product), store[i]? = some p →
      (productIDs store)[i]? = some (itoa p.ID) ∧
      buildBatch store (productIDs store) [i] = some [(itoa p.ID, p)] ∧
      (itoa p.ID ≠ [] ∧ (∀ b ∈ itoa p.ID, IsDigit b) ∧ ((decVal 0 (itoa p.ID) : Nat) : Int) = p.ID) ∧
      atoi (itoa p.ID) = (p.ID, none) ∧
      hydrate store [{ ID := itoa p.ID }] [] [] = some ([p], [Effect.storeRead (i : Int)])) ∧
    (∀ is : List Nat, (∀ i ∈ is, i < store.length) →
      (recordsOf store is).length = is.length ∧
      buildBatch store (productIDs store) is =
        some (List.zip ((hitsOf store is).map Hit.ID) (recordsOf store is)) ∧
      hydrate store (hitsOf store is) [] [] =
        some (recordsOf store is, is.map (fun i : Nat => Effect.storeRead (i : Int))) ∧
      ∀ q, ∃ out, searchProducts (constEngine (hitsOf store is)) store q = some out ∧
        out.err = none ∧ out.results = recordsOf store is) := by
  constructor
  · intro i p hp
    have hid := hinv i p hp
    have hi : i < store.length := by
      by_contra hc
      rw [List.getElem?_eq_none (Nat.le_of_not_lt hc)] at hp
      exact Option.noConfusion hp
    obtain ⟨hat, hpk, hrd⟩ := pick_key store hinv hlen i p hp
    have hkey : (productIDs store)[i]? = some (itoa p.ID) := by
      rw [productIDs, List.getElem?_map, hp]
      rfl
    have hmi : maxInt = 9223372036854775807 := rfl
    have h0 : ¬ p.ID < 0 := by omega
    obtain ⟨ds, hds, hne, hdig, hval⟩ := formatBitsLoop_spec 20 p.ID.natAbs [] (by
      rw [hmi] at hlen
      norm_num
      omega)
    have hit : itoa p.ID = ds := by rw [itoa, if_neg h0, hds, List.append_nil]
    refine ⟨hkey, ?_, ?_, hat, ?_⟩
    · simp only [buildBatch, hkey, hp]
    · rw [hit]
      exact ⟨hne, hdig, by rw [hval]; omega⟩
    · rw [hydrate_eq, List.filterMap_cons, hpk, List.filterMap_cons, hrd]
      rfl
  · intro is his
    obtain ⟨h1, h2, h3, h4⟩ := hitsOf_hydrates store hinv hlen is his
    refine ⟨h3, h4, ?_, ?_⟩
    · rw [hydrate_eq, h1, h2]
      rfl
    · intro q
      refine ⟨_, searchProducts_ok (constEngine (hitsOf store is)) store q _ rfl, rfl, ?_⟩
      exact h1

/-- C9 at a concrete input: the three-record store; the keys are `"1"`, `"2"`, `"3"` and
the hits for the positions 2, 0, 2 hydrate to the records with the IDs 3, 1, 3. -/
theorem C9_key_round_trip_witness :
    StoreInvariant sampleStore ∧ (sampleStore.length : Int) ≤ maxInt ∧
    productIDs sampleStore = [[49], [50], [51]] ∧
    (recordsOf sampleStore [2, 0, 2]).map Product.ID = [3, 1, 3] ∧
    ((∀ (i : Nat) (p : Product), sampleStore[i]? = some p →
      (productIDs sampleStore)[i]? = some (itoa p.ID) ∧
      buildBatch sampleStore (productIDs sampleStore) [i] = some [(itoa p.ID, p)] ∧
      (itoa p.ID ≠ [] ∧ (∀ b ∈ itoa p.ID, IsDigit b) ∧ ((decVal 0 (itoa p.ID) : Nat) : Int) = p.ID) ∧
      atoi (itoa p.ID) = (p.ID, none) ∧
      hydrate sampleStore [{ ID := itoa p.ID }] [] [] =
        some ([p], [Effect.storeRead (i : Int)])) ∧
    (∀ is : List Nat, (∀ i ∈ is, i < sampleStore.length) →
      (recordsOf sampleStore is).length = is.length ∧
      buildBatch sampleStore (productIDs sampleStore) is =
        some (List.zip ((hitsOf sampleStore is).map Hit.ID) (recordsOf sampleStore is)) ∧
      hydrate sampleStore (hitsOf sampleStore is) [] [] =
        some (recordsOf sampleStore is, is.map (fun i : Nat => Effect.storeRead (i : Int))) ∧
      ∀ q, ∃ out, searchProducts (constEngine (hitsOf sampleStore is)) sampleStore q = some out ∧
        out.err = none ∧ out.results = recordsOf sampleStore is)) :=
  ⟨sampleStore_invariant, by decide, by decide, by decide,
    C9_key_round_trip sampleStore sampleStore_invariant (by decide)⟩

/-- C10: for every outcome `rnd` of the random choices the catalog returned by
`generateProducts` has exactly 1000000 records and satisfies the store invariant
`store[i].ID == i + 1`; its identifiers are 1, 2, ..., 1000000 in order, without
repetition. -/
theorem C10_generateProducts_invariant (rnd : Nat → Nat) :
    (generateProducts rnd).length = 1000000 ∧
    StoreInvariant (generateProducts rnd) ∧
    (generateProducts rnd).map Product.ID = (List.range' 1 1000000).map (fun k : Nat => (k : Int)) ∧
    ((generateProducts rnd).map Product.ID).Nodup := by
  have hmap : (generateProducts rnd).map Product.ID =
      (List.range' 1 1000000).map (fun k : Nat => (k : Int)) := by
    have hf : (Product.ID ∘ makeProduct rnd) = fun k : Nat => (k : Int) := rfl
    rw [generateProducts_eq, List.map_map, hf]
  refine ⟨?_, ?_, hmap, ?_⟩
  · rw [generateProducts_eq, List.length_map, List.length_range']
  · intro i p hp
    rw [generateProducts_eq, List.getElem?_map] at hp
    by_cases hi : i < 1000000
    · rw [List.getElem?_range' _ _ hi] at hp
      simp only [Option.map_some', Option.some.injEq] at hp
      rw [← hp]
      show ((1 + 1 * i : Nat) : Int) = (i : Int) + 1
      omega
    · rw [List.getElem?_eq_none (by simpa using Nat.le_of_not_lt hi)] at hp
      exact Option.noConfusion hp
  · rw [hmap]
    have hnd : (List.range' 1 1000000).Nodup := List.nodup_range' 1 1000000
    exact List.Nodup.map Nat.cast_injective hnd

/-! ## Claim on the load -/

/-- C4: take any execution of the load (any interleaving of the coordinator and the
workers, any outcome of each `index.Batch` call, every such call returning) in which
at least one batch submission fails, and the state `s` it has reached.  The execution
is finite (at most `3 * n + 15` steps); if no goroutine can take a further step then
`createIndex` has returned, and in any case the execution can be continued until it
has; `createIndex` has not returned nil; when it has returned, its result is one
error, non-nil, and one of the errors returned by the failing batch submissions, and
whatever happens afterwards the result stays and no further chunk is fed. -/
theorem C4_load_fail_fast (n : Nat) (acts : List Action) (s : LoadState)
    (hrun : run n initState acts = some s) (hfail : failuresOf acts ≠ []) :
    acts.length ≤ 3 * n + 15 ∧
    ((∀ a, step n s a = none) → hasReturned s = true) ∧
    (∃ acts' s', run n s acts' = some s' ∧ hasReturned s' = true) ∧
    s.coord ≠ Coord.returned none ∧
    (∀ r, s.coord = Coord.returned r →
      (∃ e, r = some e ∧ e ∈ failuresOf acts) ∧
      ∀ acts' s', run n s acts' = some s' → s'.coord = Coord.returned r ∧ s'.fed = s.fed) := by
  have inv : Inv s := inv_run n acts initState s inv_init hrun
  have hfs : s.failures = failuresOf acts := by
    have := run_failures n acts initState s hrun
    rw [this]
    rfl
  have hnone : s.coord ≠ Coord.returned none := by
    intro hr
    have hne : s.failures ≠ [] := by rw [hfs]; exact hfail
    have hdone := inv.past_wait (Or.inr hr)
    rcases inv.latched hne with h1 | ⟨e, h2⟩ | ⟨w, e, h3⟩
    · rw [inv.returned_none hr] at h1
      exact Bool.noConfusion h1
    · rw [hr] at h2
      injection h2 with h2
      exact Option.noConfusion h2
    · exact Worker.noConfusion (hdone w _ h3)
  refine ⟨?_, ?_, ?_, hnone, ?_⟩
  · have h1 := run_length n acts initState s hrun
    rw [measure_init] at h1
    omega
  · intro hstuck
    cases hc : s.coord with
    | returned r => simp only [hasReturned, hc]
    | feeding start =>
      obtain ⟨a, s', hs⟩ := progress n s inv (fun r h => by rw [hc] at h; exact Coord.noConfusion h)
      rw [hstuck a] at hs
      exact Option.noConfusion hs
    | waiting =>
      obtain ⟨a, s', hs⟩ := progress n s inv (fun r h => by rw [hc] at h; exact Coord.noConfusion h)
      rw [hstuck a] at hs
      exact Option.noConfusion hs
    | finalSelect =>
      obtain ⟨a, s', hs⟩ := progress n s inv (fun r h => by rw [hc] at h; exact Coord.noConfusion h)
      rw [hstuck a] at hs
      exact Option.noConfusion hs
  · exact can_return n (loadMeasure n s) s inv (Nat.le_refl _)
  · intro r hr
    refine ⟨?_, fun acts' s' h' => returned_run n r acts' s s' hr h'⟩
    cases r with
    | some e =>
      refine ⟨e, rfl, ?_⟩
      rw [← hfs]
      exact inv.returned_mem e hr
    | none => exact absurd hr hnone

/-- C4 at a concrete input: 10000 records, two failing workers; the load returns the
error that was reported first. -/
theorem C4_load_fail_fast_witness :
    run 10000 initState sampleSchedule = some sampleFinal ∧
    failuresOf sampleSchedule = ["disk full", "index closed"] ∧
    sampleSchedule.length ≤ 3 * 10000 + 15 ∧
    ((∀ a, step 10000 sampleFinal a = none) → hasReturned sampleFinal = true) ∧
    (∃ acts' s', run 10000 sampleFinal acts' = some s' ∧ hasReturned s' = true) ∧
    sampleFinal.coord ≠ Coord.returned none ∧
    (∀ r, sampleFinal.coord = Coord.returned r →
      (∃ e, r = some e ∧ e ∈ failuresOf sampleSchedule) ∧
      ∀ acts' s', run 10000 sampleFinal acts' = some s' →
        s'.coord = Coord.returned r ∧ s'.fed = sampleFinal.fed) :=
  ⟨by decide, by decide,
    C4_load_fail_fast 10000 sampleSchedule sampleFinal (by decide) (by decide)⟩

end Blevego
